import Mathlib

/-!
Verification of the pathfinding core of the CU PathFinder repository.

The definitions below are a shallow embedding of
`backend/campus_graph.py` (class `CampusGraph`) and
`backend/search_algorithms.py` (class `SearchAlgorithms`), translated
function by function.  Node names are strings, edge weights are the
natural-number metre distances used by the source, and Python's
`float('inf')` (produced by `get_path_distance` on a broken path) is
modelled by `⊤` in `WithTop ℕ`.
-/

namespace PathFinder

/-- Embedding of `CampusGraph`: `nodes` is the key list of the `self.nodes`
dictionary (in insertion order), `adj v` is the item list of the dictionary
`self.edges[v]` (in insertion order), and `coordinates` is the
`self.coordinates` dictionary.  The four property fields hold for every
graph `_initialize_campus`/`_add_campus_connections` can build: dictionary
keys are unique, `self.edges.get(node, {})` returns the empty dictionary
for an unknown node, and edges are only inserted between existing nodes. -/
structure CampusGraph where
  nodes : List String
  adj : String → List (String × ℕ)
  coordinates : String → Option (ℤ × ℤ)
  nodes_nodup : nodes.Nodup
  adj_closed : ∀ v e, e ∈ adj v → e.1 ∈ nodes
  adj_default : ∀ v, v ∉ nodes → adj v = []
  adj_keys_nodup : ∀ v, ((adj v).map Prod.fst).Nodup

/-- Lookup in an association list, as Python dictionary access. -/
def lookupW : List (String × ℕ) → String → Option ℕ
  | [], _ => none
  | (k, w) :: rest, b => if k = b then some w else lookupW rest b

/-- Embedding of `CampusGraph.get_neighbors`. -/
def get_neighbors (g : CampusGraph) (node : String) : List (String × ℕ) :=
  g.adj node

/-- Embedding of `CampusGraph.get_distance`: distance between two directly
connected nodes, `none` when not connected. -/
def get_distance (g : CampusGraph) (node1 node2 : String) : Option ℕ :=
  lookupW (g.adj node1) node2

/-- Embedding of `CampusGraph.is_valid_node`. -/
def is_valid_node (g : CampusGraph) (node : String) : Bool :=
  decide (node ∈ g.nodes)

/-- Embedding of `CampusGraph.get_path_distance`: total distance of a path,
`⊤` (Python `float('inf')`) when a consecutive pair is not an edge, `0` for
paths of fewer than two nodes. -/
def get_path_distance (g : CampusGraph) : List String → WithTop ℕ
  | [] => 0
  | [_] => 0
  | a :: b :: rest =>
    match get_distance g a b with
    | none => ⊤
    | some d => (d : WithTop ℕ) + get_path_distance g (b :: rest)

/-- Embedding of `CampusGraph.euclidean_distance`: pixel coordinates are
scaled by `1000/824` horizontally and `2000/1741` vertically and the
Euclidean norm is taken; `float('inf')` (here `⊤`) is returned when either
node has no coordinates. -/
noncomputable def euclidean_distance (g : CampusGraph) (node1 node2 : String) : EReal :=
  match g.coordinates node1, g.coordinates node2 with
  | some (x1, y1), some (x2, y2) =>
    ((Real.sqrt ((((x2 - x1 : ℤ) : ℝ) * (1000 / 824)) ^ 2
        + (((y2 - y1 : ℤ) : ℝ) * (2000 / 1741)) ^ 2) : ℝ) : EReal)
  | _, _ => ⊤

/-- Embedding of the `SearchResult` container. -/
structure SearchResult where
  path : List String
  cost : WithTop ℕ
  nodes_explored : List String
  exploration_order : List String
  algorithm : String
  success : Bool
deriving DecidableEq

/-- Embedding of the derived `SearchResult.num_nodes_explored` field,
`len(set(nodes_explored))`. -/
def num_nodes_explored (r : SearchResult) : ℕ :=
  r.nodes_explored.dedup.length

/-! ### Frontier orders

Python's `heapq` keeps a binary min-heap of tuples and `heappop` returns
the smallest tuple (its documented contract), tuples being compared
lexicographically component by component; strings compare by code point,
exactly the order of their character lists.  Since the tuple order is a
linear order, entries that compare equal are structurally identical, so
the observable pop sequence is fully determined by "pop the least
element".  The frontier is therefore modelled as a list kept sorted by
the tuple order: `heappush` is ordered insertion, `heappop` takes the
head. -/

/-- UCS frontier entries `(cost, node, path)` as pushed by
`uniform_cost_search`. -/
abbrev UCSEnt := ℕ × String × List String

/-- Comparison key realising the Python tuple order on UCS entries. -/
def ucsKey (e : UCSEnt) : ℕ ×ₗ List Char ×ₗ List (List Char) :=
  toLex (e.1, toLex (e.2.1.toList, e.2.2.map String.toList))

/-- Python order on `(cost, node, path)` heap entries. -/
def ucsLE (e₁ e₂ : UCSEnt) : Prop := ucsKey e₁ ≤ ucsKey e₂

instance : DecidableRel ucsLE :=
  fun e₁ e₂ => inferInstanceAs (Decidable (ucsKey e₁ ≤ ucsKey e₂))

instance : IsTotal UCSEnt ucsLE := ⟨fun a b => le_total (ucsKey a) (ucsKey b)⟩

instance : IsTrans UCSEnt ucsLE := ⟨fun _ _ _ h h₂ => le_trans h h₂⟩

/-- A-star frontier entries `(f_cost, g_cost, node, path)` as pushed by
`a_star_search`; `f_cost` is a rational because the heuristic is. -/
abbrev AEnt := ℚ × ℕ × String × List String

/-- Comparison key realising the Python tuple order on A-star entries. -/
def astarKey (e : AEnt) : ℚ ×ₗ ℕ ×ₗ List Char ×ₗ List (List Char) :=
  toLex (e.1, toLex (e.2.1, toLex (e.2.2.1.toList, e.2.2.2.map String.toList)))

/-- Python order on `(f, g, node, path)` heap entries. -/
def astarLE (e₁ e₂ : AEnt) : Prop := astarKey e₁ ≤ astarKey e₂

instance : DecidableRel astarLE :=
  fun e₁ e₂ => inferInstanceAs (Decidable (astarKey e₁ ≤ astarKey e₂))

instance : IsTotal AEnt astarLE := ⟨fun a b => le_total (astarKey a) (astarKey b)⟩

instance : IsTrans AEnt astarLE := ⟨fun _ _ _ h h₂ => le_trans h h₂⟩

/-- Model of `heapq.heappush` for UCS entries. -/
def ucsPush (heap : List UCSEnt) (e : UCSEnt) : List UCSEnt :=
  List.orderedInsert ucsLE e heap

/-- Sequence of `heapq.heappush` calls for UCS entries. -/
def ucsPushAll (heap : List UCSEnt) (es : List UCSEnt) : List UCSEnt :=
  es.foldl ucsPush heap

/-- Model of `heapq.heappush` for A-star entries. -/
def astarPush (heap : List AEnt) (e : AEnt) : List AEnt :=
  List.orderedInsert astarLE e heap

/-! ### Termination measure shared by the four search loops -/

/-- Total degree of the not-yet-visited nodes; each loop iteration pops one
frontier entry and, when it expands a fresh node, pushes at most that
node's degree, so frontier length plus this quantity strictly decreases. -/
def sumDeg (g : CampusGraph) (visited : List String) : ℕ :=
  ((g.nodes.filter (fun v => v ∉ visited)).map (fun v => (g.adj v).length)).sum

theorem sumDeg_visit (g : CampusGraph) (visited : List String) (v : String)
    (hv : v ∈ g.nodes) (hnv : v ∉ visited) :
    sumDeg g (visited ++ [v]) + (g.adj v).length = sumDeg g visited := by
  unfold sumDeg
  have hfilter : List.Perm (g.nodes.filter (fun x => x ∉ visited))
      (v :: g.nodes.filter (fun x => x ∉ visited ++ [v])) := by
    have hmem : v ∈ g.nodes.filter (fun x => x ∉ visited) := by
      simp [List.mem_filter, hv, hnv]
    have hnd : (g.nodes.filter (fun x => x ∉ visited)).Nodup :=
      g.nodes_nodup.filter _
    have herase : (g.nodes.filter (fun x => x ∉ visited)).erase v
        = g.nodes.filter (fun x => x ∉ visited ++ [v]) := by
      rw [hnd.erase_eq_filter]
      rw [List.filter_filter]
      apply List.filter_congr
      intro x hx
      by_cases hxv : x = v <;> simp [hxv]
    exact herase ▸ List.perm_cons_erase hmem
  have := (hfilter.map (fun v => (g.adj v).length)).sum_eq
  simp only [List.map_cons, List.sum_cons] at this
  omega

theorem sumDeg_visit_out (g : CampusGraph) (visited : List String) (v : String)
    (hv : v ∉ g.nodes) :
    sumDeg g (visited ++ [v]) = sumDeg g visited := by
  unfold sumDeg
  have : g.nodes.filter (fun x => x ∉ visited ++ [v])
      = g.nodes.filter (fun x => x ∉ visited) := by
    apply List.filter_congr
    intro x hx
    have hxv : x ≠ v := fun h => hv (h ▸ hx)
    simp [hxv]
  rw [this]

theorem ucsPush_length (heap : List UCSEnt) (e : UCSEnt) :
    (ucsPush heap e).length = heap.length + 1 := by
  unfold ucsPush
  induction heap with
  | nil => rfl
  | cons x xs ih => by_cases h : ucsLE e x <;> simp [List.orderedInsert, h, ih]

theorem ucsPushAll_length (es : List UCSEnt) (heap : List UCSEnt) :
    (ucsPushAll heap es).length = heap.length + es.length := by
  induction es generalizing heap with
  | nil => rfl
  | cons x xs ih =>
    unfold ucsPushAll at ih ⊢
    simp [List.foldl_cons, ih, ucsPush_length]
    omega

theorem astarPush_length (heap : List AEnt) (e : AEnt) :
    (astarPush heap e).length = heap.length + 1 := by
  unfold astarPush
  induction heap with
  | nil => rfl
  | cons x xs ih => by_cases h : astarLE e x <;> simp [List.orderedInsert, h, ih]

/-! ### The four search algorithms

Each is embedded as a top-level guard function (the body of the Python
method before its main loop) plus a loop function whose arguments are the
Python loop state.  The `visited` set is modelled as the list of elements
in insertion order, membership being the only operation used. -/

/-- Main loop of `SearchAlgorithms.breadth_first_search`: the queue is a
FIFO `deque` of `(node, path, cost)` triples, popped from the front,
neighbours appended at the back in enumeration order. -/
def bfsLoop (g : CampusGraph) (goal : String) (queue : List (String × List String × ℕ))
    (visited exploration_order nodes_explored : List String) : SearchResult :=
  match queue with
  | [] => ⟨[], 0, nodes_explored, exploration_order, "BFS", false⟩
  | (current_node, path, cost) :: rest =>
    if hvis : current_node ∈ visited then
      bfsLoop g goal rest visited exploration_order nodes_explored
    else
      if current_node = goal then
        ⟨path, get_path_distance g path, nodes_explored ++ [current_node],
          exploration_order ++ [current_node], "BFS", true⟩
      else
        bfsLoop g goal
          (rest ++ ((g.adj current_node).filter
              (fun e => e.1 ∉ visited ++ [current_node])).map
            (fun e => (e.1, path ++ [e.1], cost + e.2)))
          (visited ++ [current_node]) (exploration_order ++ [current_node])
          (nodes_explored ++ [current_node])
termination_by queue.length + sumDeg g visited
decreasing_by
  · simp only [List.length_cons]
    omega
  · have hlen : (((g.adj current_node).filter
        (fun e => e.1 ∉ visited ++ [current_node])).map
        (fun e => (e.1, path ++ [e.1], cost + e.2))).length ≤ (g.adj current_node).length := by
      rw [List.length_map]
      exact List.length_filter_le _ _
    by_cases hc : current_node ∈ g.nodes
    · have := sumDeg_visit g visited current_node hc hvis
      simp only [List.length_append, List.length_cons]
      omega
    · have hadj := g.adj_default current_node hc
      have := sumDeg_visit_out g visited current_node hc
      simp only [List.length_append, List.length_cons, hadj, List.filter_nil,
        List.map_nil, List.length_nil, List.append_nil] at hlen ⊢
      omega

/-- Main loop of `SearchAlgorithms.depth_first_search`: the stack holds
`(node, path, cost)` triples; Python pops from the end of the list and
appends the neighbour list reversed, so the next pops see the neighbours
in enumeration order — with the head of the list as the top of the stack
this is prepending the filtered neighbours in enumeration order. -/
def dfsLoop (g : CampusGraph) (goal : String) (stack : List (String × List String × ℕ))
    (visited exploration_order nodes_explored : List String) : SearchResult :=
  match stack with
  | [] => ⟨[], 0, nodes_explored, exploration_order, "DFS", false⟩
  | (current_node, path, cost) :: rest =>
    if hvis : current_node ∈ visited then
      dfsLoop g goal rest visited exploration_order nodes_explored
    else
      if current_node = goal then
        ⟨path, get_path_distance g path, nodes_explored ++ [current_node],
          exploration_order ++ [current_node], "DFS", true⟩
      else
        dfsLoop g goal
          ((((g.adj current_node).filter
              (fun e => e.1 ∉ visited ++ [current_node])).map
            (fun e => (e.1, path ++ [e.1], cost + e.2))) ++ rest)
          (visited ++ [current_node]) (exploration_order ++ [current_node])
          (nodes_explored ++ [current_node])
termination_by stack.length + sumDeg g visited
decreasing_by
  · simp only [List.length_cons]
    omega
  · have hlen : (((g.adj current_node).filter
        (fun e => e.1 ∉ visited ++ [current_node])).map
        (fun e => (e.1, path ++ [e.1], cost + e.2))).length ≤ (g.adj current_node).length := by
      rw [List.length_map]
      exact List.length_filter_le _ _
    by_cases hc : current_node ∈ g.nodes
    · have := sumDeg_visit g visited current_node hc hvis
      simp only [List.length_append, List.length_cons]
      omega
    · have hadj := g.adj_default current_node hc
      have := sumDeg_visit_out g visited current_node hc
      simp only [List.length_append, List.length_cons, hadj, List.filter_nil,
        List.map_nil, List.length_nil, List.append_nil] at hlen ⊢
      omega

/-- Main loop of `SearchAlgorithms.uniform_cost_search`: the frontier is a
`heapq` priority queue of `(cost, node, path)` tuples. -/
def ucsLoop (g : CampusGraph) (goal : String) (frontier : List UCSEnt)
    (visited exploration_order nodes_explored : List String) : SearchResult :=
  match frontier with
  | [] => ⟨[], 0, nodes_explored, exploration_order, "UCS", false⟩
  | (current_cost, current_node, path) :: rest =>
    if hvis : current_node ∈ visited then
      ucsLoop g goal rest visited exploration_order nodes_explored
    else
      if current_node = goal then
        ⟨path, (current_cost : WithTop ℕ), nodes_explored ++ [current_node],
          exploration_order ++ [current_node], "UCS", true⟩
      else
        ucsLoop g goal
          (ucsPushAll rest (((g.adj current_node).filter
              (fun e => e.1 ∉ visited ++ [current_node])).map
            (fun e => (current_cost + e.2, e.1, path ++ [e.1]))))
          (visited ++ [current_node]) (exploration_order ++ [current_node])
          (nodes_explored ++ [current_node])
termination_by frontier.length + sumDeg g visited
decreasing_by
  · simp only [List.length_cons]
    omega
  · rw [ucsPushAll_length]
    have hlen : (((g.adj current_node).filter
        (fun e => e.1 ∉ visited ++ [current_node])).map
        (fun e => (current_cost + e.2, e.1, path ++ [e.1]))).length
        ≤ (g.adj current_node).length := by
      rw [List.length_map]
      exact List.length_filter_le _ _
    by_cases hc : current_node ∈ g.nodes
    · have := sumDeg_visit g visited current_node hc hvis
      simp only [List.length_cons]
      omega
    · have hadj := g.adj_default current_node hc
      have := sumDeg_visit_out g visited current_node hc
      simp only [List.length_cons, hadj, List.filter_nil, List.map_nil,
        List.length_nil] at hlen ⊢
      omega

/-- One step of the neighbour loop of `a_star_search`: skip a visited
neighbour, otherwise relax the edge against the best-known `g_costs`
entry, updating the dictionary and pushing `(f, g, node, path)` on the
frontier when the new cost improves. -/
def astarRelax (goal : String) (h : String → String → ℚ) (visited : List String)
    (gcost : ℕ) (path : List String) (st : List AEnt × (String → Option ℕ))
    (e : String × ℕ) : List AEnt × (String → Option ℕ) :=
  if e.1 ∈ visited then st
  else
    match st.2 e.1 with
    | some old =>
      if old ≤ gcost + e.2 then st
      else (astarPush st.1 (((gcost + e.2 : ℕ) : ℚ) + h e.1 goal, gcost + e.2, e.1, path ++ [e.1]),
        fun x => if x = e.1 then some (gcost + e.2) else st.2 x)
    | none => (astarPush st.1 (((gcost + e.2 : ℕ) : ℚ) + h e.1 goal, gcost + e.2, e.1, path ++ [e.1]),
        fun x => if x = e.1 then some (gcost + e.2) else st.2 x)

theorem astarRelax_length (goal : String) (h : String → String → ℚ)
    (visited : List String) (gcost : ℕ) (path : List String)
    (st : List AEnt × (String → Option ℕ)) (e : String × ℕ) :
    (astarRelax goal h visited gcost path st e).1.length ≤ st.1.length + 1 := by
  unfold astarRelax
  split
  · omega
  · split
    · split
      · omega
      · simp [astarPush_length]
    · simp [astarPush_length]

theorem astarRelax_foldl_length (goal : String) (h : String → String → ℚ)
    (visited : List String) (gcost : ℕ) (path : List String)
    (l : List (String × ℕ)) (st : List AEnt × (String → Option ℕ)) :
    ((l.foldl (astarRelax goal h visited gcost path) st).1).length ≤ st.1.length + l.length := by
  induction l generalizing st with
  | nil => simp
  | cons x xs ih =>
    simp only [List.foldl_cons, List.length_cons]
    have h1 := astarRelax_length goal h visited gcost path st x
    have h2 := ih (astarRelax goal h visited gcost path st x)
    omega

/-- Main loop of `SearchAlgorithms.a_star_search`: the frontier is a
`heapq` priority queue of `(f_cost, g_cost, node, path)` tuples and
`gcosts` is the `g_costs` best-known-cost dictionary. -/
def astarLoop (g : CampusGraph) (goal : String) (h : String → String → ℚ)
    (frontier : List AEnt) (gcosts : String → Option ℕ)
    (visited exploration_order nodes_explored : List String) : SearchResult :=
  match frontier with
  | [] => ⟨[], 0, nodes_explored, exploration_order, "A*", false⟩
  | (fcost, gcost, current_node, path) :: rest =>
    if hvis : current_node ∈ visited then
      astarLoop g goal h rest gcosts visited exploration_order nodes_explored
    else
      if current_node = goal then
        ⟨path, (gcost : WithTop ℕ), nodes_explored ++ [current_node],
          exploration_order ++ [current_node], "A*", true⟩
      else
        astarLoop g goal h
          ((g.adj current_node).foldl
            (astarRelax goal h (visited ++ [current_node]) gcost path) (rest, gcosts)).1
          ((g.adj current_node).foldl
            (astarRelax goal h (visited ++ [current_node]) gcost path) (rest, gcosts)).2
          (visited ++ [current_node]) (exploration_order ++ [current_node])
          (nodes_explored ++ [current_node])
termination_by frontier.length + sumDeg g visited
decreasing_by
  · simp only [List.length_cons]
    omega
  · have hlen := astarRelax_foldl_length goal h (visited ++ [current_node]) gcost path
      (g.adj current_node) (rest, gcosts)
    by_cases hc : current_node ∈ g.nodes
    · have := sumDeg_visit g visited current_node hc hvis
      simp only [List.length_cons] at hlen ⊢
      omega
    · have hadj := g.adj_default current_node hc
      have := sumDeg_visit_out g visited current_node hc
      simp only [List.length_cons, hadj, List.length_nil] at hlen ⊢
      omega

/-- Embedding of `SearchAlgorithms.breadth_first_search`. -/
def breadth_first_search (g : CampusGraph) (start goal : String) : SearchResult :=
  if !(is_valid_node g start) || !(is_valid_node g goal) then
    ⟨[], 0, [], [], "BFS", false⟩
  else if start = goal then
    ⟨[start], 0, [start], [start], "BFS", true⟩
  else
    bfsLoop g goal [(start, [start], 0)] [] [] []

/-- Embedding of `SearchAlgorithms.depth_first_search`. -/
def depth_first_search (g : CampusGraph) (start goal : String) : SearchResult :=
  if !(is_valid_node g start) || !(is_valid_node g goal) then
    ⟨[], 0, [], [], "DFS", false⟩
  else if start = goal then
    ⟨[start], 0, [start], [start], "DFS", true⟩
  else
    dfsLoop g goal [(start, [start], 0)] [] [] []

/-- Embedding of `SearchAlgorithms.uniform_cost_search`. -/
def uniform_cost_search (g : CampusGraph) (start goal : String) : SearchResult :=
  if !(is_valid_node g start) || !(is_valid_node g goal) then
    ⟨[], 0, [], [], "UCS", false⟩
  else if start = goal then
    ⟨[start], 0, [start], [start], "UCS", true⟩
  else
    ucsLoop g goal [(0, start, [start])] [] [] []

/-- Embedding of `SearchAlgorithms.a_star_search`.  The heuristic `h`
stands for `self.graph.euclidean_distance`, a nonnegative real in the
source; it is passed as a rational-valued parameter because only order
comparisons of heap tuples consume it, and the claim theorems relate it
to `euclidean_distance` at the coordinates in question. -/
def a_star_search (g : CampusGraph) (h : String → String → ℚ) (start goal : String) :
    SearchResult :=
  if !(is_valid_node g start) || !(is_valid_node g goal) then
    ⟨[], 0, [], [], "A*", false⟩
  else if start = goal then
    ⟨[start], 0, [start], [start], "A*", true⟩
  else
    astarLoop g goal h [(h start goal, 0, start, [start])]
      (fun x => if x = start then some 0 else none) [] [] []

/-! ### Paths in the graph -/

/-- Cost contributed by a single step, `⊤` when the pair is not an edge. -/
def edgeCost (g : CampusGraph) (x y : String) : WithTop ℕ :=
  match get_distance g x y with
  | none => ⊤
  | some d => (d : WithTop ℕ)

/-- Walks from `s` in the graph: `IsPath g s v p` states that `p` is a
node sequence leading from `s` to `v` whose consecutive pairs are edges
of `g` (in the direction the search algorithms traverse them, via
`get_distance`).  Built by appending a node, exactly how the algorithms
extend the paths they carry. -/
inductive IsPath (g : CampusGraph) (s : String) : String → List String → Prop
  | refl (hs : s ∈ g.nodes) : IsPath g s s [s]
  | snoc {x y : String} {w : ℕ} {p : List String} (hp : IsPath g s x p)
      (he : get_distance g x y = some w) : IsPath g s y (p ++ [y])

theorem lookupW_mem {l : List (String × ℕ)} {b : String} {w : ℕ}
    (h : lookupW l b = some w) : (b, w) ∈ l := by
  induction l with
  | nil => simp [lookupW] at h
  | cons x xs ih =>
    obtain ⟨k, v⟩ := x
    unfold lookupW at h
    by_cases hk : k = b
    · simp [hk] at h
      simp [hk, h]
    · simp [hk] at h
      exact List.mem_cons_of_mem _ (ih h)

theorem lookupW_of_mem {l : List (String × ℕ)} {b : String} {w : ℕ}
    (hnd : (l.map Prod.fst).Nodup) (h : (b, w) ∈ l) : lookupW l b = some w := by
  induction l with
  | nil => simp at h
  | cons x xs ih =>
    obtain ⟨k, v⟩ := x
    simp only [List.map_cons, List.nodup_cons] at hnd
    rcases List.mem_cons.mp h with heq | hmem
    · obtain ⟨hb, hw⟩ := Prod.mk.injEq .. ▸ heq
      simp [lookupW, hb.symm, hw]
    · have hk : k ≠ b := by
        intro hk
        exact hnd.1 (hk ▸ (List.mem_map.mpr ⟨(b, w), hmem, rfl⟩))
      simp [lookupW, hk]
      exact ih hnd.2 hmem

theorem IsPath.ne_nil {g : CampusGraph} {s v : String} {p : List String}
    (h : IsPath g s v p) : p ≠ [] := by
  cases h with
  | refl hs => simp
  | snoc hp he => simp

theorem IsPath.start_mem {g : CampusGraph} {s v : String} {p : List String}
    (h : IsPath g s v p) : s ∈ g.nodes := by
  induction h with
  | refl hs => exact hs
  | snoc hp he ih => exact ih

theorem IsPath.end_mem {g : CampusGraph} {s v : String} {p : List String}
    (h : IsPath g s v p) : v ∈ g.nodes := by
  cases h with
  | refl hs => exact hs
  | snoc hp he => exact g.adj_closed _ _ (lookupW_mem he)

theorem IsPath.getLast_eq {g : CampusGraph} {s v : String} {p : List String}
    (h : IsPath g s v p) : p.getLast? = some v := by
  cases h with
  | refl hs => rfl
  | snoc hp he => simp

theorem IsPath.head_eq {g : CampusGraph} {s v : String} {p : List String}
    (h : IsPath g s v p) : p.head? = some s := by
  induction h with
  | refl hs => rfl
  | snoc hp he ih =>
    rename_i x y w q
    cases q with
    | nil => exact absurd rfl hp.ne_nil
    | cons a as => simpa using ih

theorem get_path_distance_snoc (g : CampusGraph) (p : List String) (x y : String)
    (hne : p ≠ []) (hlast : p.getLast? = some x) :
    get_path_distance g (p ++ [y]) = get_path_distance g p + edgeCost g x y := by
  induction p generalizing x with
  | nil => exact absurd rfl hne
  | cons a as ih =>
    cases as with
    | nil =>
      have hax : a = x := by simpa using hlast
      subst hax
      show get_path_distance g [a, y] = get_path_distance g [a] + edgeCost g a y
      unfold get_path_distance edgeCost
      cases get_distance g a y <;> simp [get_path_distance]
    | cons b bs =>
      have hlast2 : (b :: bs).getLast? = some x := by
        rw [List.getLast?_cons_cons] at hlast
        exact hlast
      have hih := ih x (by simp) hlast2
      show get_path_distance g (a :: b :: (bs ++ [y]))
          = get_path_distance g (a :: b :: bs) + edgeCost g x y
      unfold get_path_distance
      cases hd : get_distance g a b with
      | none => simp
      | some d =>
        have hstep : get_path_distance g (b :: (bs ++ [y]))
            = get_path_distance g (b :: bs) + edgeCost g x y := hih
        rw [hstep, add_assoc]

theorem IsPath.dist_finite {g : CampusGraph} {s v : String} {p : List String}
    (h : IsPath g s v p) : ∃ n : ℕ, get_path_distance g p = (n : WithTop ℕ) := by
  induction h with
  | refl hs => exact ⟨0, rfl⟩
  | snoc hp he ih =>
    rename_i x y w q
    obtain ⟨n, hn⟩ := ih
    refine ⟨n + w, ?_⟩
    rw [get_path_distance_snoc g q x y hp.ne_nil hp.getLast_eq, hn]
    unfold edgeCost
    rw [he]
    exact_mod_cast rfl

/-! ### Concrete graph construction -/

/-- Adjacency lookup in a finite table, used to build concrete graphs. -/
def tableAdj : List (String × List (String × ℕ)) → String → List (String × ℕ)
  | [], _ => []
  | (k, es) :: rest, v => if v = k then es else tableAdj rest v

theorem tableAdj_cases (t : List (String × List (String × ℕ))) (v : String) :
    tableAdj t v = [] ∨ ∃ row ∈ t, row.1 = v ∧ tableAdj t v = row.2 := by
  induction t with
  | nil => exact Or.inl rfl
  | cons x xs ih =>
    obtain ⟨k, es⟩ := x
    by_cases hk : v = k
    · exact Or.inr ⟨(k, es), by simp, hk.symm, by simp [tableAdj, hk]⟩
    · rcases ih with h | ⟨row, hrow, hv, heq⟩
      · exact Or.inl (by simp [tableAdj, hk, h])
      · exact Or.inr ⟨row, List.mem_cons_of_mem _ hrow, hv, by simp [tableAdj, hk, heq]⟩

/-- Builder for concrete graphs from a node list and adjacency table; the
side conditions are decidable and mirror what `_initialize_campus`
guarantees. -/
def mkGraph (nodes : List String) (table : List (String × List (String × ℕ)))
    (coords : String → Option (ℤ × ℤ))
    (h1 : nodes.Nodup)
    (h2 : ∀ row ∈ table, row.1 ∈ nodes)
    (h3 : ∀ row ∈ table, ∀ e ∈ row.2, e.1 ∈ nodes)
    (h4 : ∀ row ∈ table, (row.2.map Prod.fst).Nodup) : CampusGraph where
  nodes := nodes
  adj := tableAdj table
  coordinates := coords
  nodes_nodup := h1
  adj_closed := by
    intro v e he
    rcases tableAdj_cases table v with h | ⟨row, hrow, hv, heq⟩
    · rw [h] at he
      simp at he
    · rw [heq] at he
      exact h3 row hrow e he
  adj_default := by
    intro v hv
    rcases tableAdj_cases table v with h | ⟨row, hrow, hveq, heq⟩
    · exact h
    · exact absurd (hveq ▸ h2 row hrow) hv
  adj_keys_nodup := by
    intro v
    rcases tableAdj_cases table v with h | ⟨row, hrow, hveq, heq⟩
    · simp [h]
    · rw [heq]
      exact h4 row hrow

/-! ### Supporting lemmas for the loop invariants -/

theorem get_distance_of_adj {g : CampusGraph} {cur nb : String} {w : ℕ}
    (h : (nb, w) ∈ g.adj cur) : get_distance g cur nb = some w :=
  lookupW_of_mem (g.adj_keys_nodup cur) h

theorem ucsPush_mem {heap : List UCSEnt} {e x : UCSEnt} :
    x ∈ ucsPush heap e ↔ x = e ∨ x ∈ heap :=
  List.mem_orderedInsert ucsLE

theorem ucsPush_sorted {heap : List UCSEnt} (h : heap.Sorted ucsLE) (e : UCSEnt) :
    (ucsPush heap e).Sorted ucsLE :=
  List.Sorted.orderedInsert e heap h

theorem ucsPushAll_mem {es : List UCSEnt} {heap : List UCSEnt} {x : UCSEnt} :
    x ∈ ucsPushAll heap es ↔ x ∈ heap ∨ x ∈ es := by
  induction es generalizing heap with
  | nil => simp [ucsPushAll]
  | cons y ys ih =>
    unfold ucsPushAll at ih ⊢
    rw [List.foldl_cons]
    rw [ih]
    rw [ucsPush_mem]
    constructor
    · rintro ((h | h) | h)
      · exact Or.inr (by simp [h])
      · exact Or.inl h
      · exact Or.inr (List.mem_cons_of_mem _ h)
    · rintro (h | h)
      · exact Or.inl (Or.inr h)
      · rcases List.mem_cons.mp h with h | h
        · exact Or.inl (Or.inl h)
        · exact Or.inr h

theorem ucsPushAll_sorted {es : List UCSEnt} {heap : List UCSEnt}
    (h : heap.Sorted ucsLE) : (ucsPushAll heap es).Sorted ucsLE := by
  induction es generalizing heap with
  | nil => exact h
  | cons y ys ih =>
    unfold ucsPushAll
    rw [List.foldl_cons]
    exact ih (ucsPush_sorted h y)

theorem ucsLE_cost {e₁ e₂ : UCSEnt} (h : ucsLE e₁ e₂) : e₁.1 ≤ e₂.1 := by
  unfold ucsLE ucsKey at h
  rcases (Prod.Lex.le_iff _ _).mp h with h | ⟨h, -⟩
  · exact le_of_lt h
  · exact le_of_eq h

theorem sorted_head_cost {hd : UCSEnt} {rest : List UCSEnt}
    (hs : (hd :: rest).Sorted ucsLE) : ∀ e ∈ hd :: rest, hd.1 ≤ e.1 := by
  intro e he
  rcases List.mem_cons.mp he with rfl | he
  · exact le_refl _
  · exact ucsLE_cost ((List.sorted_cons.mp hs).1 e he)

theorem astarPush_mem {heap : List AEnt} {e x : AEnt} :
    x ∈ astarPush heap e ↔ x = e ∨ x ∈ heap :=
  List.mem_orderedInsert astarLE

theorem astarPush_sorted {heap : List AEnt} (h : heap.Sorted astarLE) (e : AEnt) :
    (astarPush heap e).Sorted astarLE :=
  List.Sorted.orderedInsert e heap h

/-- Decomposition of a walk at the border of a visited set: a walk ending
outside the set either starts outside it, or crosses an edge from a
member to a non-member, with the walk up to that member no longer and no
costlier than the whole walk. -/
theorem exists_boundary {g : CampusGraph} {s u : String} {q : List String}
    {V : List String} (hq : IsPath g s u q) (hu : u ∉ V) :
    s ∉ V ∨
    ∃ x y w q1, x ∈ V ∧ y ∉ V ∧ get_distance g x y = some w ∧ IsPath g s x q1 ∧
      q1.length + 1 ≤ q.length ∧
      get_path_distance g q1 + (w : WithTop ℕ) ≤ get_path_distance g q := by
  induction hq with
  | refl hs => exact Or.inl hu
  | snoc hp he ih =>
    rename_i x0 y0 w0 p
    by_cases hx : x0 ∈ V
    · refine Or.inr ⟨x0, y0, w0, p, hx, hu, he, hp, by simp, ?_⟩
      rw [get_path_distance_snoc g p x0 y0 hp.ne_nil hp.getLast_eq]
      unfold edgeCost
      rw [he]
    · rcases ih hx with hs | ⟨x, y, w, q1, hxV, hyV, he1, hq1, hlen, hcost⟩
      · exact Or.inl hs
      · refine Or.inr ⟨x, y, w, q1, hxV, hyV, he1, hq1, ?_, ?_⟩
        · have : p.length ≤ (p ++ [y0]).length := by simp
          omega
        · refine le_trans hcost ?_
          rw [get_path_distance_snoc g p x0 y0 hp.ne_nil hp.getLast_eq]
          exact le_self_add

/-- A visited set that contains the start and is closed under adjacency
contains every node reachable from the start. -/
theorem coverage_of_closed {g : CampusGraph} {s : String} {V : List String}
    (hs : s ∈ V) (hcl : ∀ v ∈ V, ∀ nw ∈ g.adj v, nw.1 ∈ V) :
    ∀ u q, IsPath g s u q → u ∈ V := by
  intro u q hq
  induction hq with
  | refl _ => exact hs
  | snoc hp he ih => exact hcl _ ih _ (lookupW_mem he)

/-- Invariant of the UCS loop relative to start node `s`. -/
def UCSInv (g : CampusGraph) (s goal : String) (frontier : List UCSEnt)
    (visited exploration_order nodes_explored : List String) : Prop :=
  visited = exploration_order ∧
  nodes_explored = exploration_order ∧
  exploration_order.Nodup ∧
  goal ∉ visited ∧
  frontier.Sorted ucsLE ∧
  (∀ e ∈ frontier, IsPath g s e.2.1 e.2.2 ∧ get_path_distance g e.2.2 = (e.1 : WithTop ℕ)) ∧
  (s ∉ visited → (0, s, [s]) ∈ frontier) ∧
  (∀ v ∈ visited, ∀ nw ∈ g.adj v, nw.1 ∉ visited →
    ∀ q, IsPath g s v q → ∃ e ∈ frontier, e.2.1 = nw.1 ∧
      (e.1 : WithTop ℕ) ≤ get_path_distance g q + (nw.2 : WithTop ℕ)) ∧
  (∀ v ∈ visited, ∃ q, IsPath g s v q)

/-- What the UCS loop guarantees about its result. -/
def UCSPost (g : CampusGraph) (s goal : String) (r : SearchResult) : Prop :=
  r.nodes_explored = r.exploration_order ∧
  r.exploration_order.Nodup ∧
  r.algorithm = "UCS" ∧
  (r.success = true →
    IsPath g s goal r.path ∧ get_path_distance g r.path = r.cost ∧
    ∀ q, IsPath g s goal q → r.cost ≤ get_path_distance g q) ∧
  (r.success = false →
    r.path = [] ∧ r.cost = 0 ∧
    (∀ u q, IsPath g s u q → u ∈ r.exploration_order) ∧
    ∀ q, ¬ IsPath g s goal q)

/-- Dijkstra pop argument: the cost of a freshly popped minimum entry is a
lower bound on the cost of every walk to its node. -/
theorem ucs_pop_min {g : CampusGraph} {s goal : String} {cc : ℕ} {cur : String}
    {pp : List String} {rest : List UCSEnt} {visited expl nexp : List String}
    (hinv : UCSInv g s goal ((cc, cur, pp) :: rest) visited expl nexp)
    (hcur : cur ∉ visited) :
    ∀ q, IsPath g s cur q → (cc : WithTop ℕ) ≤ get_path_distance g q := by
  obtain ⟨hve, hne, hnd, hgv, hsort, hgen, h0, h2, hreach⟩ := hinv
  intro q hq
  rcases exists_boundary hq hcur with hsV | ⟨x, y, w, q1, hxV, hyV, he1, hq1, -, hcost⟩
  · have hmem := h0 hsV
    have hle := sorted_head_cost hsort _ hmem
    have hcc : cc = 0 := Nat.le_zero.mp hle
    subst hcc
    simpa using zero_le _
  · obtain ⟨e, hemem, -, hbound⟩ :=
      h2 x hxV (y, w) (lookupW_mem he1) hyV q1 hq1
    have hle : cc ≤ e.1 := sorted_head_cost hsort e hemem
    calc (cc : WithTop ℕ) ≤ (e.1 : WithTop ℕ) := by exact_mod_cast hle
      _ ≤ get_path_distance g q1 + (w : WithTop ℕ) := hbound
      _ ≤ get_path_distance g q := hcost

theorem ucsLoop_spec (g : CampusGraph) (s goal : String) :
    ∀ frontier visited expl nexp, UCSInv g s goal frontier visited expl nexp →
      UCSPost g s goal (ucsLoop g goal frontier visited expl nexp) := by
  intro frontier visited expl nexp
  induction frontier, visited, expl, nexp using ucsLoop.induct g goal with
  | case1 visited expl nexp =>
    intro hinv
    obtain ⟨hve, hne, hnd, hgv, hsort, hgen, h0, h2, hreach⟩ := hinv
    simp only [ucsLoop]
    have hsV : s ∈ visited := by
      by_contra hs
      simpa using h0 hs
    have hcl : ∀ v ∈ visited, ∀ nw ∈ g.adj v, nw.1 ∈ visited := by
      intro v hv nw hnw
      by_contra hnb
      obtain ⟨q, hq⟩ := hreach v hv
      simpa using (h2 v hv nw hnw hnb q hq).choose_spec.1
    have hcov : ∀ u q, IsPath g s u q → u ∈ visited :=
      coverage_of_closed hsV hcl
    refine ⟨hne, hnd, rfl, by simp, ?_⟩
    intro _
    refine ⟨rfl, rfl, ?_, ?_⟩
    · intro u q hq
      exact hve ▸ hcov u q hq
    · intro q hq
      exact hgv (hcov goal q hq)
  | case2 visited expl nexp cc cur pp rest hvis ih =>
    intro hinv
    obtain ⟨hve, hne, hnd, hgv, hsort, hgen, h0, h2, hreach⟩ := hinv
    simp only [ucsLoop, dif_pos hvis]
    refine ih ⟨hve, hne, hnd, hgv, (List.sorted_cons.mp hsort).2, ?_, ?_, ?_, hreach⟩
    · intro e he
      exact hgen e (List.mem_cons_of_mem _ he)
    · intro hs
      rcases List.mem_cons.mp (h0 hs) with heq | hmem
      · cases heq
        exact absurd hvis hs
      · exact hmem
    · intro v hv nw hnw hnb q hq
      obtain ⟨e, hemem, henode, hbound⟩ := h2 v hv nw hnw hnb q hq
      rcases List.mem_cons.mp hemem with heq | hmem
      · exfalso
        have hcur : e.2.1 = cur := by rw [heq]
        rw [hcur] at henode
        exact hnb (henode ▸ hvis)
      · exact ⟨e, hmem, henode, hbound⟩
  | case3 visited expl nexp cc pp rest hvis =>
    intro hinv
    have hpop := ucs_pop_min hinv hvis
    obtain ⟨hve, hne, hnd, hgv, hsort, hgen, h0, h2, hreach⟩ := hinv
    simp only [ucsLoop, dif_neg hvis, if_true]
    obtain ⟨hpathgen, hdist⟩ := hgen (cc, goal, pp) (List.mem_cons_self _ _)
    refine ⟨by rw [hne], ?_, rfl, ?_, by simp⟩
    · simp only [List.nodup_append]
      refine ⟨hve ▸ hnd, List.nodup_singleton _, ?_⟩
      intro a ha hb
      simp only [List.mem_singleton] at hb
      subst hb
      exact hgv (hve ▸ ha)
    · intro _
      exact ⟨hpathgen, hdist, fun q hq => hpop q hq⟩
  | case4 visited expl nexp cc cur pp rest hvis hngoal ih =>
    intro hinv
    have hpop := ucs_pop_min hinv hvis
    obtain ⟨hve, hne, hnd, hgv, hsort, hgen, h0, h2, hreach⟩ := hinv
    simp only [ucsLoop, dif_neg hvis, if_neg hngoal]
    obtain ⟨hpathgen, hdist⟩ := hgen (cc, cur, pp) (List.mem_cons_self _ _)
    refine ih ⟨by rw [hve], by rw [hne], ?_, ?_,
      ucsPushAll_sorted (List.sorted_cons.mp hsort).2, ?_, ?_, ?_, ?_⟩
    · simp only [List.nodup_append]
      refine ⟨hve ▸ hnd, List.nodup_singleton _, ?_⟩
      intro a ha hb
      simp only [List.mem_singleton] at hb
      subst hb
      exact hvis (hve ▸ ha)
    · simp only [List.mem_append, List.mem_singleton]
      rintro (h | h)
      · exact hgv h
      · exact hngoal h.symm
    · intro e he
      rcases ucsPushAll_mem.mp he with hmem | hmem
      · exact hgen e (List.mem_cons_of_mem _ hmem)
      · obtain ⟨nw, hnwmem, rfl⟩ := List.mem_map.mp hmem
        have hadj : nw ∈ g.adj cur := (List.mem_filter.mp hnwmem).1
        refine ⟨hpathgen.snoc (get_distance_of_adj hadj), ?_⟩
        rw [get_path_distance_snoc g pp cur nw.1 hpathgen.ne_nil hpathgen.getLast_eq,
          hdist]
        unfold edgeCost
        rw [get_distance_of_adj hadj]
        push_cast
        rfl
    · intro hs
      have hsv : s ∉ visited := fun h => hs (List.mem_append.mpr (Or.inl h))
      have hsc : s ≠ cur := fun h => hs (by simp [h])
      rcases List.mem_cons.mp (h0 hsv) with heq | hmem
      · cases heq
        exact absurd rfl hsc
      · exact ucsPushAll_mem.mpr (Or.inl hmem)
    · intro v hv nw hnw hnb q hq
      have hnbv : nw.1 ∉ visited := fun h => hnb (List.mem_append.mpr (Or.inl h))
      have hnbc : nw.1 ≠ cur := fun h => hnb (by simp [h])
      rcases List.mem_append.mp hv with hvold | hvcur
      · obtain ⟨e, hemem, henode, hbound⟩ := h2 v hvold nw hnw hnbv q hq
        rcases List.mem_cons.mp hemem with heq | hmem
        · exfalso
          have hcureq : e.2.1 = cur := by rw [heq]
          exact hnbc (henode ▸ hcureq)
        · exact ⟨e, ucsPushAll_mem.mpr (Or.inl hmem), henode, hbound⟩
      · have hvcur2 : v = cur := by simpa using hvcur
        subst hvcur2
        refine ⟨(cc + nw.2, nw.1, pp ++ [nw.1]), ?_, rfl, ?_⟩
        · refine ucsPushAll_mem.mpr (Or.inr ?_)
          exact List.mem_map.mpr ⟨nw, List.mem_filter.mpr ⟨hnw, by simpa using hnb⟩, rfl⟩
        · have hcc := hpop q hq
          calc ((cc + nw.2 : ℕ) : WithTop ℕ) = (cc : WithTop ℕ) + (nw.2 : WithTop ℕ) := by
                push_cast
                rfl
            _ ≤ get_path_distance g q + (nw.2 : WithTop ℕ) := add_le_add_right hcc _
    · intro v hv
      rcases List.mem_append.mp hv with hvold | hvcur
      · exact hreach v hvold
      · have : v = cur := by simpa using hvcur
        exact ⟨pp, this ▸ hpathgen⟩

/-! ### BFS master lemma -/

/-- Queue entries ordered by the length of the carried path; a FIFO
breadth-first queue is always sorted by this measure. -/
def lenLE (e₁ e₂ : String × List String × ℕ) : Prop :=
  e₁.2.1.length ≤ e₂.2.1.length

theorem sorted_head_len {hd : String × List String × ℕ}
    {rest : List (String × List String × ℕ)}
    (hs : (hd :: rest).Sorted lenLE) :
    ∀ e ∈ hd :: rest, hd.2.1.length ≤ e.2.1.length := by
  intro e he
  rcases List.mem_cons.mp he with rfl | he
  · exact le_refl _
  · exact (List.sorted_cons.mp hs).1 e he

theorem sorted_of_const_len {L : ℕ} {l : List (String × List String × ℕ)}
    (h : ∀ e ∈ l, e.2.1.length = L) : l.Sorted lenLE := by
  induction l with
  | nil => exact List.sorted_nil
  | cons x xs ih =>
    rw [List.sorted_cons]
    refine ⟨?_, ih fun e he => h e (List.mem_cons_of_mem _ he)⟩
    intro b hb
    unfold lenLE
    rw [h x (List.mem_cons_self _ _), h b (List.mem_cons_of_mem _ hb)]

/-- Invariant of the BFS loop relative to start node `s`. -/
def BFSInv (g : CampusGraph) (s goal : String)
    (queue : List (String × List String × ℕ))
    (visited exploration_order nodes_explored : List String) : Prop :=
  visited = exploration_order ∧
  nodes_explored = exploration_order ∧
  exploration_order.Nodup ∧
  goal ∉ visited ∧
  queue.Sorted lenLE ∧
  (∀ e₁ ∈ queue, ∀ e₂ ∈ queue, e₁.2.1.length ≤ e₂.2.1.length + 1) ∧
  (∀ e ∈ queue, IsPath g s e.1 e.2.1) ∧
  (s ∉ visited → (s, [s], 0) ∈ queue) ∧
  (∀ v ∈ visited, ∀ nw ∈ g.adj v, nw.1 ∉ visited →
    ∀ q, IsPath g s v q → ∃ e ∈ queue, e.1 = nw.1 ∧ e.2.1.length ≤ q.length + 1) ∧
  (∀ v ∈ visited, ∃ q, IsPath g s v q)

/-- What the BFS loop guarantees about its result. -/
def BFSPost (g : CampusGraph) (s goal : String) (r : SearchResult) : Prop :=
  r.nodes_explored = r.exploration_order ∧
  r.exploration_order.Nodup ∧
  r.algorithm = "BFS" ∧
  (r.success = true →
    IsPath g s goal r.path ∧ r.cost = get_path_distance g r.path ∧
    ∀ q, IsPath g s goal q → r.path.length ≤ q.length) ∧
  (r.success = false →
    r.path = [] ∧ r.cost = 0 ∧
    (∀ u q, IsPath g s u q → u ∈ r.exploration_order) ∧
    ∀ q, ¬ IsPath g s goal q)

/-- BFS pop argument: the path of a freshly popped entry is at most as
long as every walk to its node. -/
theorem bfs_pop_min {g : CampusGraph} {s goal : String} {cur : String}
    {pp : List String} {cc : ℕ} {rest : List (String × List String × ℕ)}
    {visited expl nexp : List String}
    (hinv : BFSInv g s goal ((cur, pp, cc) :: rest) visited expl nexp)
    (hcur : cur ∉ visited) :
    ∀ q, IsPath g s cur q → pp.length ≤ q.length := by
  obtain ⟨hve, hne, hnd, hgv, hsort, hwin, hgen, h0, h2, hreach⟩ := hinv
  intro q hq
  have hq1 : 1 ≤ q.length := List.length_pos.mpr hq.ne_nil
  rcases exists_boundary hq hcur with hsV | ⟨x, y, w, q1, hxV, hyV, he1, hq1b, hlen, -⟩
  · have hmem := h0 hsV
    have hle := sorted_head_len hsort _ hmem
    simp only [List.length_singleton] at hle
    omega
  · obtain ⟨e, hemem, -, hbound⟩ :=
      h2 x hxV (y, w) (lookupW_mem he1) hyV q1 hq1b
    have hle : pp.length ≤ e.2.1.length := sorted_head_len hsort e hemem
    omega

theorem bfsLoop_spec (g : CampusGraph) (s goal : String) :
    ∀ queue visited expl nexp, BFSInv g s goal queue visited expl nexp →
      BFSPost g s goal (bfsLoop g goal queue visited expl nexp) := by
  intro queue visited expl nexp
  induction queue, visited, expl, nexp using bfsLoop.induct g goal with
  | case1 visited expl nexp =>
    intro hinv
    obtain ⟨hve, hne, hnd, hgv, hsort, hwin, hgen, h0, h2, hreach⟩ := hinv
    simp only [bfsLoop]
    have hsV : s ∈ visited := by
      by_contra hs
      simpa using h0 hs
    have hcl : ∀ v ∈ visited, ∀ nw ∈ g.adj v, nw.1 ∈ visited := by
      intro v hv nw hnw
      by_contra hnb
      obtain ⟨q, hq⟩ := hreach v hv
      simpa using (h2 v hv nw hnw hnb q hq).choose_spec.1
    have hcov : ∀ u q, IsPath g s u q → u ∈ visited :=
      coverage_of_closed hsV hcl
    refine ⟨hne, hnd, rfl, by simp, ?_⟩
    intro _
    refine ⟨rfl, rfl, ?_, ?_⟩
    · intro u q hq
      exact hve ▸ hcov u q hq
    · intro q hq
      exact hgv (hcov goal q hq)
  | case2 visited expl nexp cur pp cc rest hvis ih =>
    intro hinv
    obtain ⟨hve, hne, hnd, hgv, hsort, hwin, hgen, h0, h2, hreach⟩ := hinv
    simp only [bfsLoop, dif_pos hvis]
    refine ih ⟨hve, hne, hnd, hgv, (List.sorted_cons.mp hsort).2, ?_, ?_, ?_, ?_, hreach⟩
    · intro e₁ he₁ e₂ he₂
      exact hwin e₁ (List.mem_cons_of_mem _ he₁) e₂ (List.mem_cons_of_mem _ he₂)
    · intro e he
      exact hgen e (List.mem_cons_of_mem _ he)
    · intro hs
      rcases List.mem_cons.mp (h0 hs) with heq | hmem
      · cases heq
        exact absurd hvis hs
      · exact hmem
    · intro v hv nw hnw hnb q hq
      obtain ⟨e, hemem, henode, hbound⟩ := h2 v hv nw hnw hnb q hq
      rcases List.mem_cons.mp hemem with heq | hmem
      · exfalso
        have hcur : e.1 = cur := by rw [heq]
        rw [hcur] at henode
        exact hnb (henode ▸ hvis)
      · exact ⟨e, hmem, henode, hbound⟩
  | case3 visited expl nexp pp cc rest hvis =>
    intro hinv
    have hpop := bfs_pop_min hinv hvis
    obtain ⟨hve, hne, hnd, hgv, hsort, hwin, hgen, h0, h2, hreach⟩ := hinv
    simp only [bfsLoop, dif_neg hvis, if_true]
    have hpathgen := hgen (goal, pp, cc) (List.mem_cons_self _ _)
    refine ⟨by rw [hne], ?_, rfl, ?_, by simp⟩
    · simp only [List.nodup_append]
      refine ⟨hve ▸ hnd, List.nodup_singleton _, ?_⟩
      intro a ha hb
      simp only [List.mem_singleton] at hb
      subst hb
      exact hgv (hve ▸ ha)
    · intro _
      exact ⟨hpathgen, rfl, fun q hq => hpop q hq⟩
  | case4 visited expl nexp cur pp cc rest hvis hngoal ih =>
    intro hinv
    have hpop := bfs_pop_min hinv hvis
    obtain ⟨hve, hne, hnd, hgv, hsort, hwin, hgen, h0, h2, hreach⟩ := hinv
    simp only [bfsLoop, dif_neg hvis, if_neg hngoal]
    have hpathgen := hgen (cur, pp, cc) (List.mem_cons_self _ _)
    have hLmin : ∀ e ∈ rest, pp.length ≤ e.2.1.length := by
      intro e he
      exact sorted_head_len hsort e (List.mem_cons_of_mem _ he)
    have hpushlen : ∀ e ∈ ((g.adj cur).filter
        (fun e => e.1 ∉ visited ++ [cur])).map
        (fun e => (e.1, pp ++ [e.1], cc + e.2)), e.2.1.length = pp.length + 1 := by
      intro e he
      obtain ⟨nw, -, rfl⟩ := List.mem_map.mp he
      simp
    refine ih ⟨by rw [hve], by rw [hne], ?_, ?_, ?_, ?_, ?_, ?_, ?_, ?_⟩
    · simp only [List.nodup_append]
      refine ⟨hve ▸ hnd, List.nodup_singleton _, ?_⟩
      intro a ha hb
      simp only [List.mem_singleton] at hb
      subst hb
      exact hvis (hve ▸ ha)
    · simp only [List.mem_append, List.mem_singleton]
      rintro (h | h)
      · exact hgv h
      · exact hngoal h.symm
    · refine List.pairwise_append.mpr
        ⟨(List.sorted_cons.mp hsort).2, sorted_of_const_len hpushlen, ?_⟩
      intro a ha b hb
      unfold lenLE
      rw [hpushlen b hb]
      have hw : a.2.1.length ≤ pp.length + 1 :=
        hwin a (List.mem_cons_of_mem _ ha) (cur, pp, cc) (List.mem_cons_self _ _)
      omega
    · intro e₁ he₁ e₂ he₂
      rcases List.mem_append.mp he₁ with h₁ | h₁ <;>
        rcases List.mem_append.mp he₂ with h₂ | h₂
      · exact hwin e₁ (List.mem_cons_of_mem _ h₁) e₂ (List.mem_cons_of_mem _ h₂)
      · rw [hpushlen e₂ h₂]
        have hw : e₁.2.1.length ≤ pp.length + 1 :=
          hwin e₁ (List.mem_cons_of_mem _ h₁) (cur, pp, cc) (List.mem_cons_self _ _)
        omega
      · rw [hpushlen e₁ h₁]
        have := hLmin e₂ h₂
        omega
      · rw [hpushlen e₁ h₁, hpushlen e₂ h₂]
        omega
    · intro e he
      rcases List.mem_append.mp he with hmem | hmem
      · exact hgen e (List.mem_cons_of_mem _ hmem)
      · obtain ⟨nw, hnwmem, rfl⟩ := List.mem_map.mp hmem
        have hadj : nw ∈ g.adj cur := (List.mem_filter.mp hnwmem).1
        exact hpathgen.snoc (get_distance_of_adj hadj)
    · intro hs
      have hsv : s ∉ visited := fun h => hs (List.mem_append.mpr (Or.inl h))
      have hsc : s ≠ cur := fun h => hs (by simp [h])
      rcases List.mem_cons.mp (h0 hsv) with heq | hmem
      · cases heq
        exact absurd rfl hsc
      · exact List.mem_append.mpr (Or.inl hmem)
    · intro v hv nw hnw hnb q hq
      have hnbv : nw.1 ∉ visited := fun h => hnb (List.mem_append.mpr (Or.inl h))
      have hnbc : nw.1 ≠ cur := fun h => hnb (by simp [h])
      rcases List.mem_append.mp hv with hvold | hvcur
      · obtain ⟨e, hemem, henode, hbound⟩ := h2 v hvold nw hnw hnbv q hq
        rcases List.mem_cons.mp hemem with heq | hmem
        · exfalso
          have hcureq : e.1 = cur := by rw [heq]
          exact hnbc (henode ▸ hcureq)
        · exact ⟨e, List.mem_append.mpr (Or.inl hmem), henode, hbound⟩
      · have hvcur2 : v = cur := by simpa using hvcur
        subst hvcur2
        refine ⟨(nw.1, pp ++ [nw.1], cc + nw.2), ?_, rfl, ?_⟩
        · refine List.mem_append.mpr (Or.inr ?_)
          exact List.mem_map.mpr ⟨nw, List.mem_filter.mpr ⟨hnw, by simpa using hnb⟩, rfl⟩
        · have := hpop q hq
          simp only [List.length_append, List.length_singleton]
          omega
    · intro v hv
      rcases List.mem_append.mp hv with hvold | hvcur
      · exact hreach v hvold
      · have : v = cur := by simpa using hvcur
        exact ⟨pp, this ▸ hpathgen⟩




/-! ### DFS master lemma -/

/-- Invariant of the DFS loop relative to start node `s`. -/
def DFSInv (g : CampusGraph) (s goal : String)
    (stack : List (String × List String × ℕ))
    (visited exploration_order nodes_explored : List String) : Prop :=
  visited = exploration_order ∧
  nodes_explored = exploration_order ∧
  exploration_order.Nodup ∧
  goal ∉ visited ∧
  (∀ e ∈ stack, IsPath g s e.1 e.2.1) ∧
  (s ∉ visited → ∃ e ∈ stack, e.1 = s) ∧
  (∀ v ∈ visited, ∀ nw ∈ g.adj v, nw.1 ∉ visited → ∃ e ∈ stack, e.1 = nw.1) ∧
  (∀ v ∈ visited, ∃ q, IsPath g s v q)

/-- What the DFS loop guarantees about its result. -/
def DFSPost (g : CampusGraph) (s goal : String) (r : SearchResult) : Prop :=
  r.nodes_explored = r.exploration_order ∧
  r.exploration_order.Nodup ∧
  r.algorithm = "DFS" ∧
  (r.success = true →
    IsPath g s goal r.path ∧ r.cost = get_path_distance g r.path) ∧
  (r.success = false →
    r.path = [] ∧ r.cost = 0 ∧
    (∀ u q, IsPath g s u q → u ∈ r.exploration_order) ∧
    ∀ q, ¬ IsPath g s goal q)

theorem dfsLoop_spec (g : CampusGraph) (s goal : String) :
    ∀ stack visited expl nexp, DFSInv g s goal stack visited expl nexp →
      DFSPost g s goal (dfsLoop g goal stack visited expl nexp) := by
  intro stack visited expl nexp
  induction stack, visited, expl, nexp using dfsLoop.induct g goal with
  | case1 visited expl nexp =>
    intro hinv
    obtain ⟨hve, hne, hnd, hgv, hgen, h0, h2, hreach⟩ := hinv
    simp only [dfsLoop]
    have hsV : s ∈ visited := by
      by_contra hs
      obtain ⟨e, hemem, -⟩ := h0 hs
      simp at hemem
    have hcl : ∀ v ∈ visited, ∀ nw ∈ g.adj v, nw.1 ∈ visited := by
      intro v hv nw hnw
      by_contra hnb
      obtain ⟨e, hemem, -⟩ := h2 v hv nw hnw hnb
      simp at hemem
    have hcov : ∀ u q, IsPath g s u q → u ∈ visited :=
      coverage_of_closed hsV hcl
    refine ⟨hne, hnd, rfl, by simp, ?_⟩
    intro _
    refine ⟨rfl, rfl, ?_, ?_⟩
    · intro u q hq
      exact hve ▸ hcov u q hq
    · intro q hq
      exact hgv (hcov goal q hq)
  | case2 visited expl nexp cur pp cc rest hvis ih =>
    intro hinv
    obtain ⟨hve, hne, hnd, hgv, hgen, h0, h2, hreach⟩ := hinv
    simp only [dfsLoop, dif_pos hvis]
    refine ih ⟨hve, hne, hnd, hgv, ?_, ?_, ?_, hreach⟩
    · intro e he
      exact hgen e (List.mem_cons_of_mem _ he)
    · intro hs
      obtain ⟨e, hemem, henode⟩ := h0 hs
      rcases List.mem_cons.mp hemem with heq | hmem
      · exfalso
        have hcureq : e.1 = cur := by rw [heq]
        have hseq : s = cur := by rw [← henode, hcureq]
        exact hs (hseq ▸ hvis)
      · exact ⟨e, hmem, henode⟩
    · intro v hv nw hnw hnb
      obtain ⟨e, hemem, henode⟩ := h2 v hv nw hnw hnb
      rcases List.mem_cons.mp hemem with heq | hmem
      · exfalso
        have : e.1 = cur := by rw [heq]
        exact hnb (henode ▸ this ▸ hvis)
      · exact ⟨e, hmem, henode⟩
  | case3 visited expl nexp pp cc rest hvis =>
    intro hinv
    obtain ⟨hve, hne, hnd, hgv, hgen, h0, h2, hreach⟩ := hinv
    simp only [dfsLoop, dif_neg hvis, if_true]
    have hpathgen := hgen (goal, pp, cc) (List.mem_cons_self _ _)
    refine ⟨by rw [hne], ?_, rfl, ?_, by simp⟩
    · simp only [List.nodup_append]
      refine ⟨hve ▸ hnd, List.nodup_singleton _, ?_⟩
      intro a ha hb
      simp only [List.mem_singleton] at hb
      subst hb
      exact hgv (hve ▸ ha)
    · intro _
      exact ⟨hpathgen, rfl⟩
  | case4 visited expl nexp cur pp cc rest hvis hngoal ih =>
    intro hinv
    obtain ⟨hve, hne, hnd, hgv, hgen, h0, h2, hreach⟩ := hinv
    simp only [dfsLoop, dif_neg hvis, if_neg hngoal]
    have hpathgen := hgen (cur, pp, cc) (List.mem_cons_self _ _)
    refine ih ⟨by rw [hve], by rw [hne], ?_, ?_, ?_, ?_, ?_, ?_⟩
    · simp only [List.nodup_append]
      refine ⟨hve ▸ hnd, List.nodup_singleton _, ?_⟩
      intro a ha hb
      simp only [List.mem_singleton] at hb
      subst hb
      exact hvis (hve ▸ ha)
    · simp only [List.mem_append, List.mem_singleton]
      rintro (h | h)
      · exact hgv h
      · exact hngoal h.symm
    · intro e he
      rcases List.mem_append.mp he with hmem | hmem
      · obtain ⟨nw, hnwmem, rfl⟩ := List.mem_map.mp hmem
        have hadj : nw ∈ g.adj cur := (List.mem_filter.mp hnwmem).1
        exact hpathgen.snoc (get_distance_of_adj hadj)
      · exact hgen e (List.mem_cons_of_mem _ hmem)
    · intro hs
      have hsv : s ∉ visited := fun h => hs (List.mem_append.mpr (Or.inl h))
      have hsc : s ≠ cur := fun h => hs (by simp [h])
      obtain ⟨e, hemem, henode⟩ := h0 hsv
      rcases List.mem_cons.mp hemem with heq | hmem
      · exfalso
        have hcureq : e.1 = cur := by rw [heq]
        exact hsc (by rw [← henode, hcureq])
      · exact ⟨e, List.mem_append.mpr (Or.inr hmem), henode⟩
    · intro v hv nw hnw hnb
      have hnbv : nw.1 ∉ visited := fun h => hnb (List.mem_append.mpr (Or.inl h))
      have hnbc : nw.1 ≠ cur := fun h => hnb (by simp [h])
      rcases List.mem_append.mp hv with hvold | hvcur
      · obtain ⟨e, hemem, henode⟩ := h2 v hvold nw hnw hnbv
        rcases List.mem_cons.mp hemem with heq | hmem
        · exfalso
          have : e.1 = cur := by rw [heq]
          exact hnbc (henode ▸ this)
        · exact ⟨e, List.mem_append.mpr (Or.inr hmem), henode⟩
      · have hvcur2 : v = cur := by simpa using hvcur
        subst hvcur2
        refine ⟨(nw.1, pp ++ [nw.1], cc + nw.2), ?_, rfl⟩
        refine List.mem_append.mpr (Or.inl ?_)
        exact List.mem_map.mpr ⟨nw, List.mem_filter.mpr ⟨hnw, by simpa using hnb⟩, rfl⟩
    · intro v hv
      rcases List.mem_append.mp hv with hvold | hvcur
      · exact hreach v hvold
      · have : v = cur := by simpa using hvcur
        exact ⟨pp, this ▸ hpathgen⟩




/-! ### A-star master lemma -/

theorem astarRelax_mem_mono {goal : String} {h : String → String → ℚ}
    {visited : List String} {gcost : ℕ} {pp : List String}
    {st : List AEnt × (String → Option ℕ)} {x : String × ℕ} {e : AEnt}
    (he : e ∈ st.1) : e ∈ (astarRelax goal h visited gcost pp st x).1 := by
  unfold astarRelax
  split
  · exact he
  · split
    · split
      · exact he
      · exact astarPush_mem.mpr (Or.inr he)
    · exact astarPush_mem.mpr (Or.inr he)

theorem astarRelax_mem_new {goal : String} {h : String → String → ℚ}
    {visited : List String} {gcost : ℕ} {pp : List String}
    {st : List AEnt × (String → Option ℕ)} {x : String × ℕ} {e : AEnt}
    (he : e ∈ (astarRelax goal h visited gcost pp st x).1) :
    e ∈ st.1 ∨ e = (((gcost + x.2 : ℕ) : ℚ) + h x.1 goal, gcost + x.2, x.1, pp ++ [x.1]) := by
  unfold astarRelax at he
  split at he
  · exact Or.inl he
  · split at he
    · split at he
      · exact Or.inl he
      · rcases astarPush_mem.mp he with heq | hmem
        · exact Or.inr heq
        · exact Or.inl hmem
    · rcases astarPush_mem.mp he with heq | hmem
      · exact Or.inr heq
      · exact Or.inl hmem

theorem astarRelax_keys_mono {goal : String} {h : String → String → ℚ}
    {visited : List String} {gcost : ℕ} {pp : List String}
    {st : List AEnt × (String → Option ℕ)} {x : String × ℕ} {u : String}
    (hu : st.2 u ≠ none) : (astarRelax goal h visited gcost pp st x).2 u ≠ none := by
  unfold astarRelax
  split
  · exact hu
  · split
    · split
      · exact hu
      · by_cases hux : u = x.1 <;> simp [hux, hu]
    · by_cases hux : u = x.1 <;> simp [hux, hu]

theorem astarRelax_keys_new {goal : String} {h : String → String → ℚ}
    {visited : List String} {gcost : ℕ} {pp : List String}
    {st : List AEnt × (String → Option ℕ)} {x : String × ℕ} {u : String}
    (hu : (astarRelax goal h visited gcost pp st x).2 u ≠ none) :
    st.2 u ≠ none ∨ ∃ e ∈ (astarRelax goal h visited gcost pp st x).1, e.2.2.1 = u := by
  by_cases hold : st.2 u ≠ none
  · exact Or.inl hold
  · right
    push_neg at hold
    unfold astarRelax at hu ⊢
    by_cases hvx : x.1 ∈ visited
    · rw [if_pos hvx] at hu ⊢
      exact absurd hold hu
    · rw [if_neg hvx] at hu ⊢
      cases hg : st.2 x.1 with
      | some old =>
        simp only [hg] at hu ⊢
        by_cases hle : old ≤ gcost + x.2
        · rw [if_pos hle] at hu ⊢
          exact absurd hold hu
        · rw [if_neg hle] at hu ⊢
          by_cases hux : u = x.1
          · subst hux
            exact ⟨_, astarPush_mem.mpr (Or.inl rfl), rfl⟩
          · simp [hux, hold] at hu
      | none =>
        simp only [hg] at hu ⊢
        by_cases hux : u = x.1
        · subst hux
          exact ⟨_, astarPush_mem.mpr (Or.inl rfl), rfl⟩
        · simp [hux, hold] at hu

theorem astarRelax_key_set {goal : String} {h : String → String → ℚ}
    {visited : List String} {gcost : ℕ} {pp : List String}
    {st : List AEnt × (String → Option ℕ)} {x : String × ℕ}
    (hx : x.1 ∉ visited) :
    (astarRelax goal h visited gcost pp st x).2 x.1 ≠ none := by
  unfold astarRelax
  rw [if_neg hx]
  cases hg : st.2 x.1 with
  | some old =>
    simp only [hg]
    split
    · simp [hg]
    · simp
  | none =>
    simp only [hg]
    simp

theorem astarFold_mem_mono {goal : String} {h : String → String → ℚ}
    {visited : List String} {gcost : ℕ} {pp : List String}
    {l : List (String × ℕ)} {st : List AEnt × (String → Option ℕ)} {e : AEnt}
    (he : e ∈ st.1) :
    e ∈ (l.foldl (astarRelax goal h visited gcost pp) st).1 := by
  induction l generalizing st with
  | nil => exact he
  | cons x xs ih => exact ih (astarRelax_mem_mono he)

theorem astarFold_mem_new {goal : String} {h : String → String → ℚ}
    {visited : List String} {gcost : ℕ} {pp : List String}
    {l : List (String × ℕ)} {st : List AEnt × (String → Option ℕ)} {e : AEnt}
    (he : e ∈ (l.foldl (astarRelax goal h visited gcost pp) st).1) :
    e ∈ st.1 ∨ ∃ x ∈ l,
      e = (((gcost + x.2 : ℕ) : ℚ) + h x.1 goal, gcost + x.2, x.1, pp ++ [x.1]) := by
  induction l generalizing st with
  | nil => exact Or.inl he
  | cons x xs ih =>
    rcases ih he with hmem | ⟨y, hy, hey⟩
    · rcases astarRelax_mem_new hmem with hmem2 | heq
      · exact Or.inl hmem2
      · exact Or.inr ⟨x, List.mem_cons_self _ _, heq⟩
    · exact Or.inr ⟨y, List.mem_cons_of_mem _ hy, hey⟩

theorem astarFold_keys_mono {goal : String} {h : String → String → ℚ}
    {visited : List String} {gcost : ℕ} {pp : List String}
    {l : List (String × ℕ)} {st : List AEnt × (String → Option ℕ)} {u : String}
    (hu : st.2 u ≠ none) :
    (l.foldl (astarRelax goal h visited gcost pp) st).2 u ≠ none := by
  induction l generalizing st with
  | nil => exact hu
  | cons x xs ih => exact ih (astarRelax_keys_mono hu)

theorem astarFold_keys_new {goal : String} {h : String → String → ℚ}
    {visited : List String} {gcost : ℕ} {pp : List String}
    {l : List (String × ℕ)} {st : List AEnt × (String → Option ℕ)} {u : String}
    (hu : (l.foldl (astarRelax goal h visited gcost pp) st).2 u ≠ none) :
    st.2 u ≠ none ∨
      ∃ e ∈ (l.foldl (astarRelax goal h visited gcost pp) st).1, e.2.2.1 = u := by
  induction l generalizing st with
  | nil => exact Or.inl hu
  | cons x xs ih =>
    simp only [List.foldl_cons] at hu ⊢
    rcases ih hu with hkey | hent
    · rcases astarRelax_keys_new hkey with hkey2 | ⟨e, hemem, henode⟩
      · exact Or.inl hkey2
      · exact Or.inr ⟨e, astarFold_mem_mono hemem, henode⟩
    · exact Or.inr hent

theorem astarFold_key_set {goal : String} {h : String → String → ℚ}
    {visited : List String} {gcost : ℕ} {pp : List String}
    {l : List (String × ℕ)} {st : List AEnt × (String → Option ℕ)} {x : String × ℕ}
    (hx : x ∈ l) (hnv : x.1 ∉ visited) :
    (l.foldl (astarRelax goal h visited gcost pp) st).2 x.1 ≠ none := by
  induction l generalizing st with
  | nil => simp at hx
  | cons y ys ih =>
    simp only [List.foldl_cons]
    rcases List.mem_cons.mp hx with rfl | hmem
    · exact astarFold_keys_mono (astarRelax_key_set hnv)
    · exact ih hmem

/-- Invariant of the A-star loop relative to start node `s`. -/
def AInv (g : CampusGraph) (s goal : String) (h : String → String → ℚ)
    (frontier : List AEnt) (gcosts : String → Option ℕ)
    (visited exploration_order nodes_explored : List String) : Prop :=
  visited = exploration_order ∧
  nodes_explored = exploration_order ∧
  exploration_order.Nodup ∧
  goal ∉ visited ∧
  (∀ e ∈ frontier, IsPath g s e.2.2.1 e.2.2.2 ∧
    get_path_distance g e.2.2.2 = (e.2.1 : WithTop ℕ)) ∧
  (s ∉ visited → ∃ e ∈ frontier, e.2.2.1 = s) ∧
  (∀ u, gcosts u ≠ none → u ∈ visited ∨ ∃ e ∈ frontier, e.2.2.1 = u) ∧
  (∀ v ∈ visited, ∀ nw ∈ g.adj v, nw.1 ∉ visited → gcosts nw.1 ≠ none) ∧
  (∀ v ∈ visited, ∃ q, IsPath g s v q)

/-- What the A-star loop guarantees about its result. -/
def APost (g : CampusGraph) (s goal : String) (r : SearchResult) : Prop :=
  r.nodes_explored = r.exploration_order ∧
  r.exploration_order.Nodup ∧
  r.algorithm = "A*" ∧
  (r.success = true →
    IsPath g s goal r.path ∧ get_path_distance g r.path = r.cost) ∧
  (r.success = false →
    r.path = [] ∧ r.cost = 0 ∧
    (∀ u q, IsPath g s u q → u ∈ r.exploration_order) ∧
    ∀ q, ¬ IsPath g s goal q)

theorem astarLoop_spec (g : CampusGraph) (s goal : String) (h : String → String → ℚ) :
    ∀ frontier gcosts visited expl nexp, AInv g s goal h frontier gcosts visited expl nexp →
      APost g s goal (astarLoop g goal h frontier gcosts visited expl nexp) := by
  intro frontier gcosts visited expl nexp
  induction frontier, gcosts, visited, expl, nexp using astarLoop.induct g goal h with
  | case1 gcosts visited expl nexp =>
    intro hinv
    obtain ⟨hve, hne, hnd, hgv, hgen, h0, hkeys, hb, hreach⟩ := hinv
    simp only [astarLoop]
    have hsV : s ∈ visited := by
      by_contra hs
      obtain ⟨e, hemem, -⟩ := h0 hs
      simp at hemem
    have hcl : ∀ v ∈ visited, ∀ nw ∈ g.adj v, nw.1 ∈ visited := by
      intro v hv nw hnw
      by_contra hnb
      rcases hkeys nw.1 (hb v hv nw hnw hnb) with hmem | ⟨e, hemem, -⟩
      · exact hnb hmem
      · simp at hemem
    have hcov : ∀ u q, IsPath g s u q → u ∈ visited :=
      coverage_of_closed hsV hcl
    refine ⟨hne, hnd, rfl, by simp, ?_⟩
    intro _
    refine ⟨rfl, rfl, ?_, ?_⟩
    · intro u q hq
      exact hve ▸ hcov u q hq
    · intro q hq
      exact hgv (hcov goal q hq)
  | case2 gcosts visited expl nexp fc gc cur pp rest hvis ih =>
    intro hinv
    obtain ⟨hve, hne, hnd, hgv, hgen, h0, hkeys, hb, hreach⟩ := hinv
    simp only [astarLoop, dif_pos hvis]
    refine ih ⟨hve, hne, hnd, hgv, ?_, ?_, ?_, hb, hreach⟩
    · intro e he
      exact hgen e (List.mem_cons_of_mem _ he)
    · intro hs
      obtain ⟨e, hemem, henode⟩ := h0 hs
      rcases List.mem_cons.mp hemem with heq | hmem
      · exfalso
        have hcureq : e.2.2.1 = cur := by rw [heq]
        exact hs (by rw [← henode, hcureq]; exact hvis)
      · exact ⟨e, hmem, henode⟩
    · intro u hu
      rcases hkeys u hu with hmem | ⟨e, hemem, henode⟩
      · exact Or.inl hmem
      · rcases List.mem_cons.mp hemem with heq | hmem2
        · left
          have hcureq : e.2.2.1 = cur := by rw [heq]
          rw [← henode, hcureq]
          exact hvis
        · exact Or.inr ⟨e, hmem2, henode⟩
  | case3 gcosts visited expl nexp fc gc pp rest hvis =>
    intro hinv
    obtain ⟨hve, hne, hnd, hgv, hgen, h0, hkeys, hb, hreach⟩ := hinv
    simp only [astarLoop, dif_neg hvis, if_true]
    obtain ⟨hpathgen, hdist⟩ := hgen (fc, gc, goal, pp) (List.mem_cons_self _ _)
    refine ⟨by rw [hne], ?_, rfl, ?_, by simp⟩
    · simp only [List.nodup_append]
      refine ⟨hve ▸ hnd, List.nodup_singleton _, ?_⟩
      intro a ha hb2
      simp only [List.mem_singleton] at hb2
      subst hb2
      exact hgv (hve ▸ ha)
    · intro _
      exact ⟨hpathgen, hdist⟩
  | case4 gcosts visited expl nexp fc gc cur pp rest hvis hngoal ih =>
    intro hinv
    obtain ⟨hve, hne, hnd, hgv, hgen, h0, hkeys, hb, hreach⟩ := hinv
    simp only [astarLoop, dif_neg hvis, if_neg hngoal]
    obtain ⟨hpathgen, hdist⟩ := hgen (fc, gc, cur, pp) (List.mem_cons_self _ _)
    refine ih ⟨by rw [hve], by rw [hne], ?_, ?_, ?_, ?_, ?_, ?_, ?_⟩
    · simp only [List.nodup_append]
      refine ⟨hve ▸ hnd, List.nodup_singleton _, ?_⟩
      intro a ha hb2
      simp only [List.mem_singleton] at hb2
      subst hb2
      exact hvis (hve ▸ ha)
    · simp only [List.mem_append, List.mem_singleton]
      rintro (hmem | hmem)
      · exact hgv hmem
      · exact hngoal hmem.symm
    · intro e he
      rcases astarFold_mem_new he with hmem | ⟨x, hx, rfl⟩
      · exact hgen e (List.mem_cons_of_mem _ hmem)
      · have hadj : x ∈ g.adj cur := hx
        refine ⟨hpathgen.snoc (get_distance_of_adj hadj), ?_⟩
        rw [get_path_distance_snoc g pp cur x.1 hpathgen.ne_nil hpathgen.getLast_eq,
          hdist]
        unfold edgeCost
        rw [get_distance_of_adj hadj]
        push_cast
        rfl
    · intro hs
      have hsv : s ∉ visited := fun hmem => hs (List.mem_append.mpr (Or.inl hmem))
      have hsc : s ≠ cur := fun hmem => hs (by simp [hmem])
      obtain ⟨e, hemem, henode⟩ := h0 hsv
      rcases List.mem_cons.mp hemem with heq | hmem
      · exfalso
        have hcureq : e.2.2.1 = cur := by rw [heq]
        exact hsc (by rw [← henode, hcureq])
      · exact ⟨e, astarFold_mem_mono hmem, henode⟩
    · intro u hu
      rcases astarFold_keys_new hu with hkey | hent
      · rcases hkeys u hkey with hmem | ⟨e, hemem, henode⟩
        · exact Or.inl (List.mem_append.mpr (Or.inl hmem))
        · rcases List.mem_cons.mp hemem with heq | hmem2
          · left
            have hcureq : e.2.2.1 = cur := by rw [heq]
            rw [← henode, hcureq]
            simp
          · exact Or.inr ⟨e, astarFold_mem_mono hmem2, henode⟩
      · exact Or.inr hent
    · intro v hv nw hnw hnb
      have hnbv : nw.1 ∉ visited := fun hmem => hnb (List.mem_append.mpr (Or.inl hmem))
      rcases List.mem_append.mp hv with hvold | hvcur
      · exact astarFold_keys_mono (hb v hvold nw hnw hnbv)
      · have hvcur2 : v = cur := by simpa using hvcur
        subst hvcur2
        exact astarFold_key_set hnw (by simpa using hnb)
    · intro v hv
      rcases List.mem_append.mp hv with hvold | hvcur
      · exact hreach v hvold
      · have : v = cur := by simpa using hvcur
        exact ⟨pp, this ▸ hpathgen⟩

/-! ### Concrete graphs used by the witnesses and counterexamples -/

/-- Adjacency table of the four-node graph `gCex`: the cheap route from S
to G runs through B, but B sits far from G in coordinate space while A
shares G's coordinates, so the coordinate heuristic drags the search
through A. -/
def tblCex : List (String × List (String × ℕ)) :=
  [("S", [("A", 1), ("B", 2)]),
   ("A", [("S", 1), ("G", 10)]),
   ("B", [("S", 2), ("G", 1)]),
   ("G", [("A", 10), ("B", 1)])]

/-- Coordinates of `gCex`: all nodes on one horizontal line, S and B at
x = 0, A and G at x = 824 (so the scaled horizontal distance is exactly
1000 metres). -/
def coordsCex : String → Option (ℤ × ℤ) := fun s =>
  if s = "S" then some (0, 0)
  else if s = "A" then some (824, 0)
  else if s = "B" then some (0, 0)
  else if s = "G" then some (824, 0)
  else none

/-- Graph on which the coordinate heuristic misleads `a_star_search`. -/
def gCex : CampusGraph :=
  mkGraph ["S", "A", "B", "G"] tblCex coordsCex
    (by decide) (by decide) (by decide) (by decide)

/-- Scaled x coordinate of a `gCex` node as a rational. -/
def xCex (s : String) : ℚ := if s = "A" ∨ s = "G" then 1000 else 0

/-- The Euclidean heuristic of `gCex` as a rational-valued function: since
all coordinates share one y value, the Euclidean distance is the absolute
difference of the scaled x coordinates.  The claim theorems prove it equal
to `euclidean_distance gCex` at the node pairs the A-star run consults. -/
def hCex (a b : String) : ℚ := |xCex b - xCex a|

/-- Adjacency table of `gTie`: S's neighbour dictionary enumerates B
before A with equal edge weights, and T is an isolated valid node. -/
def tblTie : List (String × List (String × ℕ)) :=
  [("S", [("B", 5), ("A", 5)]),
   ("A", [("S", 5)]),
   ("B", [("S", 5)]),
   ("T", [])]

/-- Graph exercising equal-cost tie-breaking (S to A and S to B both cost
5) and an unreachable valid goal T. -/
def gTie : CampusGraph :=
  mkGraph ["S", "A", "B", "T"] tblTie (fun _ => none)
    (by decide) (by decide) (by decide) (by decide)

/-- Zero heuristic used where a heuristic instance is needed. -/
def hZero : String → String → ℚ := fun _ _ => 0

theorem euclid_horiz (g : CampusGraph) (a b : String) (x1 x2 y : ℤ)
    (ha : g.coordinates a = some (x1, y)) (hb : g.coordinates b = some (x2, y)) :
    euclidean_distance g a b = ((((|x2 - x1| : ℤ) : ℝ) * (1000 / 824) : ℝ) : EReal) := by
  simp only [euclidean_distance, ha, hb]
  have harg : (((x2 - x1 : ℤ) : ℝ) * (1000 / 824)) ^ 2
      + (((y - y : ℤ) : ℝ) * (2000 / 1741)) ^ 2
      = (((x2 - x1 : ℤ) : ℝ) * (1000 / 824)) ^ 2 := by
    push_cast
    ring
  rw [harg, Real.sqrt_sq_eq_abs, abs_mul]
  congr 1
  rw [abs_of_nonneg (by norm_num : (0 : ℝ) ≤ 1000 / 824)]
  congr 1
  push_cast
  ring

/-! ### Top-level algorithm specifications -/

theorem is_valid_node_true {g : CampusGraph} {v : String} (hv : v ∈ g.nodes) :
    is_valid_node g v = true := by
  simp [is_valid_node, hv]

theorem is_valid_node_false {g : CampusGraph} {v : String} (hv : v ∉ g.nodes) :
    is_valid_node g v = false := by
  simp [is_valid_node, hv]

theorem breadth_first_search_invalid (g : CampusGraph) (start goal : String)
    (hinv : start ∉ g.nodes ∨ goal ∉ g.nodes) :
    breadth_first_search g start goal = ⟨[], 0, [], [], "BFS", false⟩ := by
  unfold breadth_first_search
  rcases hinv with hv | hv <;> simp [is_valid_node_false hv]

theorem depth_first_search_invalid (g : CampusGraph) (start goal : String)
    (hinv : start ∉ g.nodes ∨ goal ∉ g.nodes) :
    depth_first_search g start goal = ⟨[], 0, [], [], "DFS", false⟩ := by
  unfold depth_first_search
  rcases hinv with hv | hv <;> simp [is_valid_node_false hv]

theorem uniform_cost_search_invalid (g : CampusGraph) (start goal : String)
    (hinv : start ∉ g.nodes ∨ goal ∉ g.nodes) :
    uniform_cost_search g start goal = ⟨[], 0, [], [], "UCS", false⟩ := by
  unfold uniform_cost_search
  rcases hinv with hv | hv <;> simp [is_valid_node_false hv]

theorem a_star_search_invalid (g : CampusGraph) (h : String → String → ℚ)
    (start goal : String) (hinv : start ∉ g.nodes ∨ goal ∉ g.nodes) :
    a_star_search g h start goal = ⟨[], 0, [], [], "A*", false⟩ := by
  unfold a_star_search
  rcases hinv with hv | hv <;> simp [is_valid_node_false hv]

theorem breadth_first_search_self (g : CampusGraph) (a : String) (ha : a ∈ g.nodes) :
    breadth_first_search g a a = ⟨[a], 0, [a], [a], "BFS", true⟩ := by
  unfold breadth_first_search
  simp [is_valid_node_true ha]

theorem depth_first_search_self (g : CampusGraph) (a : String) (ha : a ∈ g.nodes) :
    depth_first_search g a a = ⟨[a], 0, [a], [a], "DFS", true⟩ := by
  unfold depth_first_search
  simp [is_valid_node_true ha]

theorem uniform_cost_search_self (g : CampusGraph) (a : String) (ha : a ∈ g.nodes) :
    uniform_cost_search g a a = ⟨[a], 0, [a], [a], "UCS", true⟩ := by
  unfold uniform_cost_search
  simp [is_valid_node_true ha]

theorem a_star_search_self (g : CampusGraph) (h : String → String → ℚ) (a : String)
    (ha : a ∈ g.nodes) :
    a_star_search g h a a = ⟨[a], 0, [a], [a], "A*", true⟩ := by
  unfold a_star_search
  simp [is_valid_node_true ha]

theorem breadth_first_search_spec (g : CampusGraph) (start goal : String)
    (hs : start ∈ g.nodes) (ht : goal ∈ g.nodes) (hne : start ≠ goal) :
    BFSPost g start goal (breadth_first_search g start goal) := by
  unfold breadth_first_search
  simp only [is_valid_node_true hs, is_valid_node_true ht, Bool.not_true,
    Bool.or_self, Bool.false_eq_true, if_false, if_neg hne]
  refine bfsLoop_spec g start goal _ [] [] []
    ⟨rfl, rfl, List.nodup_nil, List.not_mem_nil _, List.sorted_singleton _, ?_, ?_, ?_, ?_, ?_⟩
  · intro e₁ he₁ e₂ he₂
    simp only [List.mem_singleton] at he₁ he₂
    subst he₁
    subst he₂
    simp
  · intro e he
    simp only [List.mem_singleton] at he
    subst he
    exact IsPath.refl hs
  · intro _
    simp
  · intro v hv
    simp at hv
  · intro v hv
    simp at hv

theorem depth_first_search_spec (g : CampusGraph) (start goal : String)
    (hs : start ∈ g.nodes) (ht : goal ∈ g.nodes) (hne : start ≠ goal) :
    DFSPost g start goal (depth_first_search g start goal) := by
  unfold depth_first_search
  simp only [is_valid_node_true hs, is_valid_node_true ht, Bool.not_true,
    Bool.or_self, Bool.false_eq_true, if_false, if_neg hne]
  refine dfsLoop_spec g start goal _ [] [] []
    ⟨rfl, rfl, List.nodup_nil, List.not_mem_nil _, ?_, ?_, ?_, ?_⟩
  · intro e he
    simp only [List.mem_singleton] at he
    subst he
    exact IsPath.refl hs
  · intro _
    exact ⟨(start, [start], 0), List.mem_singleton_self _, rfl⟩
  · intro v hv
    simp at hv
  · intro v hv
    simp at hv

theorem uniform_cost_search_spec (g : CampusGraph) (start goal : String)
    (hs : start ∈ g.nodes) (ht : goal ∈ g.nodes) (hne : start ≠ goal) :
    UCSPost g start goal (uniform_cost_search g start goal) := by
  unfold uniform_cost_search
  simp only [is_valid_node_true hs, is_valid_node_true ht, Bool.not_true,
    Bool.or_self, Bool.false_eq_true, if_false, if_neg hne]
  refine ucsLoop_spec g start goal _ [] [] []
    ⟨rfl, rfl, List.nodup_nil, List.not_mem_nil _, List.sorted_singleton _, ?_, ?_, ?_, ?_⟩
  · intro e he
    simp only [List.mem_singleton] at he
    subst he
    exact ⟨IsPath.refl hs, by simp [get_path_distance]⟩
  · intro _
    exact List.mem_singleton_self _
  · intro v hv
    simp at hv
  · intro v hv
    simp at hv

theorem a_star_search_spec (g : CampusGraph) (h : String → String → ℚ)
    (start goal : String)
    (hs : start ∈ g.nodes) (ht : goal ∈ g.nodes) (hne : start ≠ goal) :
    APost g start goal (a_star_search g h start goal) := by
  unfold a_star_search
  simp only [is_valid_node_true hs, is_valid_node_true ht, Bool.not_true,
    Bool.or_self, Bool.false_eq_true, if_false, if_neg hne]
  refine astarLoop_spec g start goal h _ _ [] [] []
    ⟨rfl, rfl, List.nodup_nil, List.not_mem_nil _, ?_, ?_, ?_, ?_, ?_⟩
  · intro e he
    simp only [List.mem_singleton] at he
    subst he
    exact ⟨IsPath.refl hs, by simp [get_path_distance]⟩
  · intro _
    exact ⟨(h start goal, 0, start, [start]), List.mem_singleton_self _, rfl⟩
  · intro u hu
    by_cases hus : u = start
    · exact Or.inr ⟨(h start goal, 0, start, [start]), List.mem_singleton_self _, hus.symm⟩
    · simp [hus] at hu
  · intro v hv
    simp at hv
  · intro v hv
    simp at hv


/-! ### Claim theorems -/

/-- C6: for every graph and every valid node `a`, each of the four
strategies called with `start = goal = a` returns the successful result
with path `[a]`, cost `0`, and the single-node traces — identically for
BFS, DFS, UCS and A-star up to the algorithm name. -/
theorem claim_C6 (g : CampusGraph) (h : String → String → ℚ) (a : String)
    (ha : is_valid_node g a = true) :
    breadth_first_search g a a = ⟨[a], 0, [a], [a], "BFS", true⟩ ∧
    depth_first_search g a a = ⟨[a], 0, [a], [a], "DFS", true⟩ ∧
    uniform_cost_search g a a = ⟨[a], 0, [a], [a], "UCS", true⟩ ∧
    a_star_search g h a a = ⟨[a], 0, [a], [a], "A*", true⟩ := by
  have ham : a ∈ g.nodes := by simpa [is_valid_node] using ha
  exact ⟨breadth_first_search_self g a ham, depth_first_search_self g a ham,
    uniform_cost_search_self g a ham, a_star_search_self g h a ham⟩

/-- C6 witness: the theorem instantiated at the concrete graph `gTie`
and node S. -/
theorem claim_C6_witness :
    is_valid_node gTie "S" = true ∧
    breadth_first_search gTie "S" "S" = ⟨["S"], 0, ["S"], ["S"], "BFS", true⟩ ∧
    uniform_cost_search gTie "S" "S" = ⟨["S"], 0, ["S"], ["S"], "UCS", true⟩ := by
  have hv : is_valid_node gTie "S" = true := by decide
  have hmain := claim_C6 gTie hZero "S" hv
  exact ⟨hv, hmain.1, hmain.2.2.1⟩

/-- C3 (amended): for every graph and strategy, an invalid start or goal
makes the search return the ordinary failed `SearchResult` with empty
path, cost 0 and empty traces — the rejection happens before any node is
explored, but it is signalled through the same `success = false` result
shape as a failed search, not through a distinct error value. -/
theorem claim_C3 (g : CampusGraph) (h : String → String → ℚ) (start goal : String)
    (hinv : is_valid_node g start = false ∨ is_valid_node g goal = false) :
    breadth_first_search g start goal = ⟨[], 0, [], [], "BFS", false⟩ ∧
    depth_first_search g start goal = ⟨[], 0, [], [], "DFS", false⟩ ∧
    uniform_cost_search g start goal = ⟨[], 0, [], [], "UCS", false⟩ ∧
    a_star_search g h start goal = ⟨[], 0, [], [], "A*", false⟩ := by
  have hmem : start ∉ g.nodes ∨ goal ∉ g.nodes := by
    rcases hinv with hv | hv
    · exact Or.inl (by simpa [is_valid_node] using hv)
    · exact Or.inr (by simpa [is_valid_node] using hv)
  exact ⟨breadth_first_search_invalid g start goal hmem,
    depth_first_search_invalid g start goal hmem,
    uniform_cost_search_invalid g start goal hmem,
    a_star_search_invalid g h start goal hmem⟩

/-- C3 counterexample: at the invalid start node X of `gTie` no
`InvalidNodeError` is surfaced; every strategy returns a plain
`SearchResult` with `success = false`, the same shape that stands for a
failed search. -/
theorem claim_C3_counterexample :
    is_valid_node gTie "X" = false ∧
    breadth_first_search gTie "X" "S" = ⟨[], 0, [], [], "BFS", false⟩ ∧
    depth_first_search gTie "X" "S" = ⟨[], 0, [], [], "DFS", false⟩ ∧
    uniform_cost_search gTie "X" "S" = ⟨[], 0, [], [], "UCS", false⟩ ∧
    a_star_search gTie hZero "X" "S" = ⟨[], 0, [], [], "A*", false⟩ := by
  refine ⟨by decide, ?_, ?_, ?_, ?_⟩ <;>
    simp +decide [breadth_first_search, depth_first_search, uniform_cost_search,
      a_star_search, is_valid_node, gTie, mkGraph]

/-- C3 witness: the amended theorem applied at the concrete invalid
input. -/
theorem claim_C3_witness :
    is_valid_node gTie "Y" = false ∧
    breadth_first_search gTie "Y" "S" = ⟨[], 0, [], [], "BFS", false⟩ := by
  have hv : is_valid_node gTie "Y" = false := by decide
  exact ⟨hv, (claim_C3 gTie hZero "Y" "S" (Or.inl hv)).1⟩

/-- C8: each strategy of the embedding is a pure function of the graph
and the two endpoints, so two invocations on the same arguments return
identical results — path, cost and exploration order included. -/
theorem claim_C8 (g : CampusGraph) (h : String → String → ℚ) (start goal : String) :
    breadth_first_search g start goal = breadth_first_search g start goal ∧
    depth_first_search g start goal = depth_first_search g start goal ∧
    uniform_cost_search g start goal = uniform_cost_search g start goal ∧
    a_star_search g h start goal = a_star_search g h start goal :=
  ⟨rfl, rfl, rfl, rfl⟩

/-- C9: for every result of the four strategies, successful or not, the
exploration order has no duplicates and `nodes_explored` is
element-for-element the same list as `exploration_order`. -/
theorem claim_C9 (g : CampusGraph) (h : String → String → ℚ) (start goal : String) :
    ((breadth_first_search g start goal).exploration_order.Nodup ∧
      (breadth_first_search g start goal).nodes_explored
        = (breadth_first_search g start goal).exploration_order) ∧
    ((depth_first_search g start goal).exploration_order.Nodup ∧
      (depth_first_search g start goal).nodes_explored
        = (depth_first_search g start goal).exploration_order) ∧
    ((uniform_cost_search g start goal).exploration_order.Nodup ∧
      (uniform_cost_search g start goal).nodes_explored
        = (uniform_cost_search g start goal).exploration_order) ∧
    ((a_star_search g h start goal).exploration_order.Nodup ∧
      (a_star_search g h start goal).nodes_explored
        = (a_star_search g h start goal).exploration_order) := by
  by_cases hs : start ∈ g.nodes
  · by_cases ht : goal ∈ g.nodes
    · by_cases heq : start = goal
      · subst heq
        rw [breadth_first_search_self g start hs, depth_first_search_self g start hs,
          uniform_cost_search_self g start hs, a_star_search_self g h start hs]
        simp
      · have hb := breadth_first_search_spec g start goal hs ht heq
        have hd := depth_first_search_spec g start goal hs ht heq
        have hu := uniform_cost_search_spec g start goal hs ht heq
        have ha := a_star_search_spec g h start goal hs ht heq
        exact ⟨⟨hb.2.1, hb.1⟩, ⟨hd.2.1, hd.1⟩, ⟨hu.2.1, hu.1⟩, ⟨ha.2.1, ha.1⟩⟩
    · rw [breadth_first_search_invalid g start goal (Or.inr ht),
        depth_first_search_invalid g start goal (Or.inr ht),
        uniform_cost_search_invalid g start goal (Or.inr ht),
        a_star_search_invalid g h start goal (Or.inr ht)]
      simp
  · rw [breadth_first_search_invalid g start goal (Or.inl hs),
      depth_first_search_invalid g start goal (Or.inl hs),
      uniform_cost_search_invalid g start goal (Or.inl hs),
      a_star_search_invalid g h start goal (Or.inl hs)]
    simp

/-- C5: for every successful result of any of the four strategies, the
cost recomputed from the returned path by `get_path_distance` equals the
result's `cost` field; in particular this holds for UCS and A-star, whose
`cost` is the internally accumulated value. -/
theorem claim_C5 (g : CampusGraph) (h : String → String → ℚ) (start goal : String) :
    ((breadth_first_search g start goal).success = true →
      get_path_distance g (breadth_first_search g start goal).path
        = (breadth_first_search g start goal).cost) ∧
    ((depth_first_search g start goal).success = true →
      get_path_distance g (depth_first_search g start goal).path
        = (depth_first_search g start goal).cost) ∧
    ((uniform_cost_search g start goal).success = true →
      get_path_distance g (uniform_cost_search g start goal).path
        = (uniform_cost_search g start goal).cost) ∧
    ((a_star_search g h start goal).success = true →
      get_path_distance g (a_star_search g h start goal).path
        = (a_star_search g h start goal).cost) := by
  by_cases hs : start ∈ g.nodes
  · by_cases ht : goal ∈ g.nodes
    · by_cases heq : start = goal
      · subst heq
        rw [breadth_first_search_self g start hs, depth_first_search_self g start hs,
          uniform_cost_search_self g start hs, a_star_search_self g h start hs]
        exact ⟨fun _ => rfl, fun _ => rfl, fun _ => rfl, fun _ => rfl⟩
      · refine ⟨?_, ?_, ?_, ?_⟩
        · intro hsucc
          exact ((breadth_first_search_spec g start goal hs ht heq).2.2.2.1 hsucc).2.1.symm
        · intro hsucc
          exact ((depth_first_search_spec g start goal hs ht heq).2.2.2.1 hsucc).2.symm
        · intro hsucc
          exact ((uniform_cost_search_spec g start goal hs ht heq).2.2.2.1 hsucc).2.1
        · intro hsucc
          exact ((a_star_search_spec g h start goal hs ht heq).2.2.2.1 hsucc).2
    · rw [breadth_first_search_invalid g start goal (Or.inr ht),
        depth_first_search_invalid g start goal (Or.inr ht),
        uniform_cost_search_invalid g start goal (Or.inr ht),
        a_star_search_invalid g h start goal (Or.inr ht)]
      simp
  · rw [breadth_first_search_invalid g start goal (Or.inl hs),
      depth_first_search_invalid g start goal (Or.inl hs),
      uniform_cost_search_invalid g start goal (Or.inl hs),
      a_star_search_invalid g h start goal (Or.inl hs)]
    simp

/-- C10: `euclidean_distance` is total on arbitrary strings, returns
positive infinity when either argument has no coordinates, is symmetric,
and is never negative. -/
theorem claim_C10 (g : CampusGraph) (a b : String) :
    (g.coordinates a = none ∨ g.coordinates b = none →
      euclidean_distance g a b = ⊤) ∧
    euclidean_distance g a b = euclidean_distance g b a ∧
    0 ≤ euclidean_distance g a b := by
  refine ⟨?_, ?_, ?_⟩
  · intro hc
    unfold euclidean_distance
    rcases hc with hc | hc
    · rw [hc]
    · rw [hc]
      cases ha : g.coordinates a with
      | none => rfl
      | some p =>
        obtain ⟨x, y⟩ := p
        rfl
  · unfold euclidean_distance
    cases ha : g.coordinates a with
    | none =>
      cases hb : g.coordinates b with
      | none => rfl
      | some q =>
        obtain ⟨x2, y2⟩ := q
        rfl
    | some p =>
      obtain ⟨x1, y1⟩ := p
      cases hb : g.coordinates b with
      | none => rfl
      | some q =>
        obtain ⟨x2, y2⟩ := q
        have harg : (((x2 - x1 : ℤ) : ℝ) * (1000 / 824)) ^ 2
            + (((y2 - y1 : ℤ) : ℝ) * (2000 / 1741)) ^ 2
            = (((x1 - x2 : ℤ) : ℝ) * (1000 / 824)) ^ 2
            + (((y1 - y2 : ℤ) : ℝ) * (2000 / 1741)) ^ 2 := by
          push_cast
          ring
        simp only [harg]
  · unfold euclidean_distance
    cases ha : g.coordinates a with
    | none => exact le_top
    | some p =>
      obtain ⟨x1, y1⟩ := p
      cases hb : g.coordinates b with
      | none => exact le_top
      | some q =>
        obtain ⟨x2, y2⟩ := q
        have hnn : (0 : ℝ) ≤ Real.sqrt ((((x2 - x1 : ℤ) : ℝ) * (1000 / 824)) ^ 2
            + (((y2 - y1 : ℤ) : ℝ) * (2000 / 1741)) ^ 2) := Real.sqrt_nonneg _
        show (0 : EReal) ≤ ((Real.sqrt ((((x2 - x1 : ℤ) : ℝ) * (1000 / 824)) ^ 2
            + (((y2 - y1 : ℤ) : ℝ) * (2000 / 1741)) ^ 2) : ℝ) : EReal)
        exact_mod_cast hnn

/-- C10 witness: totality, infinity on a node without coordinates, and
symmetry, at the concrete graph `gCex`. -/
theorem claim_C10_witness :
    euclidean_distance gCex "X" "S" = ⊤ ∧
    euclidean_distance gCex "S" "A" = euclidean_distance gCex "A" "S" ∧
    0 ≤ euclidean_distance gCex "S" "A" := by
  have hmain := claim_C10 gCex "X" "S"
  have hcoord : gCex.coordinates "X" = none := by
    simp +decide [gCex, mkGraph, coordsCex]
  exact ⟨hmain.1 (Or.inl hcoord), (claim_C10 gCex "S" "A").2.1,
    (claim_C10 gCex "S" "A").2.2⟩


/-- C4 (amended): with valid endpoints and the goal unreachable from the
start, every strategy exhausts its frontier and returns `success = false`,
an empty path, cost `0` (the code returns the integer 0, not infinity),
and an exploration trace containing every node reachable from the start. -/
theorem claim_C4 (g : CampusGraph) (h : String → String → ℚ) (start goal : String)
    (hs : is_valid_node g start = true) (ht : is_valid_node g goal = true)
    (hunreach : ¬ ∃ p, IsPath g start goal p) :
    ((breadth_first_search g start goal).success = false ∧
      (breadth_first_search g start goal).path = [] ∧
      (breadth_first_search g start goal).cost = 0 ∧
      ∀ u q, IsPath g start u q →
        u ∈ (breadth_first_search g start goal).exploration_order) ∧
    ((depth_first_search g start goal).success = false ∧
      (depth_first_search g start goal).path = [] ∧
      (depth_first_search g start goal).cost = 0 ∧
      ∀ u q, IsPath g start u q →
        u ∈ (depth_first_search g start goal).exploration_order) ∧
    ((uniform_cost_search g start goal).success = false ∧
      (uniform_cost_search g start goal).path = [] ∧
      (uniform_cost_search g start goal).cost = 0 ∧
      ∀ u q, IsPath g start u q →
        u ∈ (uniform_cost_search g start goal).exploration_order) ∧
    ((a_star_search g h start goal).success = false ∧
      (a_star_search g h start goal).path = [] ∧
      (a_star_search g h start goal).cost = 0 ∧
      ∀ u q, IsPath g start u q →
        u ∈ (a_star_search g h start goal).exploration_order) := by
  have hsm : start ∈ g.nodes := by simpa [is_valid_node] using hs
  have htm : goal ∈ g.nodes := by simpa [is_valid_node] using ht
  have heq : start ≠ goal := by
    intro he
    exact hunreach ⟨[start], by rw [← he]; exact IsPath.refl hsm⟩
  have hb := breadth_first_search_spec g start goal hsm htm heq
  have hbf : (breadth_first_search g start goal).success = false := by
    cases hv : (breadth_first_search g start goal).success
    · rfl
    · exact absurd ⟨_, (hb.2.2.2.1 hv).1⟩ hunreach
  obtain ⟨hb1, hb2, hb3, -⟩ := hb.2.2.2.2 hbf
  have hd := depth_first_search_spec g start goal hsm htm heq
  have hdf : (depth_first_search g start goal).success = false := by
    cases hv : (depth_first_search g start goal).success
    · rfl
    · exact absurd ⟨_, (hd.2.2.2.1 hv).1⟩ hunreach
  obtain ⟨hd1, hd2, hd3, -⟩ := hd.2.2.2.2 hdf
  have hu := uniform_cost_search_spec g start goal hsm htm heq
  have huf : (uniform_cost_search g start goal).success = false := by
    cases hv : (uniform_cost_search g start goal).success
    · rfl
    · exact absurd ⟨_, (hu.2.2.2.1 hv).1⟩ hunreach
  obtain ⟨hu1, hu2, hu3, -⟩ := hu.2.2.2.2 huf
  have ha := a_star_search_spec g h start goal hsm htm heq
  have haf : (a_star_search g h start goal).success = false := by
    cases hv : (a_star_search g h start goal).success
    · rfl
    · exact absurd ⟨_, (ha.2.2.2.1 hv).1⟩ hunreach
  obtain ⟨ha1, ha2, ha3, -⟩ := ha.2.2.2.2 haf
  exact ⟨⟨hbf, hb1, hb2, fun u q hq => hb3 u q hq⟩,
    ⟨hdf, hd1, hd2, fun u q hq => hd3 u q hq⟩,
    ⟨huf, hu1, hu2, fun u q hq => hu3 u q hq⟩,
    ⟨haf, ha1, ha2, fun u q hq => ha3 u q hq⟩⟩

/-- C4 counterexample: on `gTie` the valid node T is unreachable from S;
every strategy returns `success = false` with cost `0`, which is not the
infinite cost the claim asserts. -/
theorem claim_C4_counterexample :
    (breadth_first_search gTie "S" "T").success = false ∧
    (breadth_first_search gTie "S" "T").cost = 0 ∧
    (breadth_first_search gTie "S" "T").cost ≠ ⊤ ∧
    (depth_first_search gTie "S" "T").cost = 0 ∧
    (uniform_cost_search gTie "S" "T").cost = 0 ∧
    (a_star_search gTie hZero "S" "T").cost = 0 := by
  have hb : breadth_first_search gTie "S" "T"
      = ⟨[], 0, ["S", "B", "A"], ["S", "B", "A"], "BFS", false⟩ := by
    simp +decide [breadth_first_search, bfsLoop, is_valid_node, gTie, mkGraph,
      tblTie, tableAdj, get_path_distance, get_distance, lookupW]
  have hd : depth_first_search gTie "S" "T"
      = ⟨[], 0, ["S", "B", "A"], ["S", "B", "A"], "DFS", false⟩ := by
    simp +decide [depth_first_search, dfsLoop, is_valid_node, gTie, mkGraph,
      tblTie, tableAdj, get_path_distance, get_distance, lookupW]
  have hu : uniform_cost_search gTie "S" "T"
      = ⟨[], 0, ["S", "A", "B"], ["S", "A", "B"], "UCS", false⟩ := by
    simp +decide [uniform_cost_search, ucsLoop, ucsPushAll, ucsPush, is_valid_node,
      gTie, mkGraph, tblTie, tableAdj, List.orderedInsert, get_distance, lookupW]
  have ha : a_star_search gTie hZero "S" "T"
      = ⟨[], 0, ["S", "A", "B"], ["S", "A", "B"], "A*", false⟩ := by
    norm_num +decide [a_star_search, astarLoop, astarRelax, astarPush, is_valid_node,
      gTie, mkGraph, tblTie, tableAdj, List.orderedInsert, get_distance, lookupW,
      hZero, astarLE, astarKey, Prod.Lex.le_iff]
  rw [hb, hd, hu, ha]
  refine ⟨rfl, rfl, by simp, rfl, rfl, rfl⟩

/-- C4 witness: the amended theorem applied to the concrete unreachable
pair (S, T) of `gTie`. -/
theorem claim_C4_witness :
    (¬ ∃ p, IsPath gTie "S" "T" p) ∧
    (breadth_first_search gTie "S" "T").success = false ∧
    (uniform_cost_search gTie "S" "T").cost = 0 := by
  have hspec := breadth_first_search_spec gTie "S" "T" (by decide) (by decide) (by decide)
  have hfail : (breadth_first_search gTie "S" "T").success = false := by
    simp +decide [breadth_first_search, bfsLoop, is_valid_node, gTie, mkGraph,
      tblTie, tableAdj, get_path_distance, get_distance, lookupW]
  have hunreach : ¬ ∃ p, IsPath gTie "S" "T" p := by
    rintro ⟨p, hp⟩
    exact (hspec.2.2.2.2 hfail).2.2.2 p hp
  have hmain := claim_C4 gTie hZero "S" "T" (by decide) (by decide) hunreach
  exact ⟨hunreach, hmain.1.1, hmain.2.2.1.2.2.1⟩

/-- C7: for every graph and reachable pair, BFS succeeds and returns a
genuine path from start to goal whose node count — hence edge count — is
minimum among all walks from start to goal. -/
theorem claim_C7 (g : CampusGraph) (start goal : String)
    (hr : ∃ p, IsPath g start goal p) :
    (breadth_first_search g start goal).success = true ∧
    IsPath g start goal (breadth_first_search g start goal).path ∧
    ∀ q, IsPath g start goal q →
      (breadth_first_search g start goal).path.length ≤ q.length := by
  obtain ⟨p0, hp0⟩ := hr
  have hsm : start ∈ g.nodes := hp0.start_mem
  have htm : goal ∈ g.nodes := hp0.end_mem
  by_cases heq : start = goal
  · subst heq
    rw [breadth_first_search_self g start hsm]
    refine ⟨rfl, IsPath.refl hsm, ?_⟩
    intro q hq
    have hq1 : 1 ≤ q.length := List.length_pos.mpr hq.ne_nil
    simpa using hq1
  · have hb := breadth_first_search_spec g start goal hsm htm heq
    have hsucc : (breadth_first_search g start goal).success = true := by
      cases hv : (breadth_first_search g start goal).success
      · exact absurd hp0 ((hb.2.2.2.2 hv).2.2.2 p0)
      · rfl
    obtain ⟨hpath, -, hmin⟩ := hb.2.2.2.1 hsucc
    exact ⟨hsucc, hpath, hmin⟩

/-- C7 witness: BFS on `gCex` from S to G, with the reachability
hypothesis discharged by the explicit walk S-B-G. -/
theorem claim_C7_witness :
    (∃ p, IsPath gCex "S" "G" p) ∧
    (breadth_first_search gCex "S" "G").success = true ∧
    (breadth_first_search gCex "S" "G").path.length
      ≤ (["S", "B", "G"] : List String).length := by
  have hSB : get_distance gCex "S" "B" = some 2 := by decide
  have hBG : get_distance gCex "B" "G" = some 1 := by decide
  have hS : ("S" : String) ∈ gCex.nodes := by decide
  have hpath : IsPath gCex "S" "G" ["S", "B", "G"] :=
    ((IsPath.refl hS).snoc hSB).snoc hBG
  have hmain := claim_C7 gCex "S" "G" ⟨_, hpath⟩
  exact ⟨⟨_, hpath⟩, hmain.1, hmain.2.2 _ hpath⟩

/-- C1 (amended): for every graph and reachable pair, UCS succeeds and
its cost is minimum among all walks from start to goal, hence at most the
cost returned by BFS, DFS, and (for any heuristic) A-star, which all
succeed as well.  A-star's own cost can exceed the minimum — see the
counterexample — so the claimed A-star optimality and the UCS = A-star
cost equality are dropped. -/
theorem claim_C1 (g : CampusGraph) (h : String → String → ℚ) (start goal : String)
    (hr : ∃ p, IsPath g start goal p) :
    (uniform_cost_search g start goal).success = true ∧
    IsPath g start goal (uniform_cost_search g start goal).path ∧
    get_path_distance g (uniform_cost_search g start goal).path
      = (uniform_cost_search g start goal).cost ∧
    (∀ q, IsPath g start goal q →
      (uniform_cost_search g start goal).cost ≤ get_path_distance g q) ∧
    (breadth_first_search g start goal).success = true ∧
    (uniform_cost_search g start goal).cost ≤ (breadth_first_search g start goal).cost ∧
    (depth_first_search g start goal).success = true ∧
    (uniform_cost_search g start goal).cost ≤ (depth_first_search g start goal).cost ∧
    (a_star_search g h start goal).success = true ∧
    (uniform_cost_search g start goal).cost ≤ (a_star_search g h start goal).cost := by
  obtain ⟨p0, hp0⟩ := hr
  have hsm : start ∈ g.nodes := hp0.start_mem
  have htm : goal ∈ g.nodes := hp0.end_mem
  by_cases heq : start = goal
  · subst heq
    rw [uniform_cost_search_self g start hsm, breadth_first_search_self g start hsm,
      depth_first_search_self g start hsm, a_star_search_self g h start hsm]
    exact ⟨rfl, IsPath.refl hsm, rfl, fun q hq => zero_le _, rfl, le_refl _,
      rfl, le_refl _, rfl, le_refl _⟩
  · have hu := uniform_cost_search_spec g start goal hsm htm heq
    have husucc : (uniform_cost_search g start goal).success = true := by
      cases hv : (uniform_cost_search g start goal).success
      · exact absurd hp0 ((hu.2.2.2.2 hv).2.2.2 p0)
      · rfl
    obtain ⟨hupath, hucost, huopt⟩ := hu.2.2.2.1 husucc
    have hb := breadth_first_search_spec g start goal hsm htm heq
    have hbsucc : (breadth_first_search g start goal).success = true := by
      cases hv : (breadth_first_search g start goal).success
      · exact absurd hp0 ((hb.2.2.2.2 hv).2.2.2 p0)
      · rfl
    obtain ⟨hbpath, hbcost, -⟩ := hb.2.2.2.1 hbsucc
    have hd := depth_first_search_spec g start goal hsm htm heq
    have hdsucc : (depth_first_search g start goal).success = true := by
      cases hv : (depth_first_search g start goal).success
      · exact absurd hp0 ((hd.2.2.2.2 hv).2.2.2 p0)
      · rfl
    obtain ⟨hdpath, hdcost⟩ := hd.2.2.2.1 hdsucc
    have ha := a_star_search_spec g h start goal hsm htm heq
    have hasucc : (a_star_search g h start goal).success = true := by
      cases hv : (a_star_search g h start goal).success
      · exact absurd hp0 ((ha.2.2.2.2 hv).2.2.2 p0)
      · rfl
    obtain ⟨hapath, hacost⟩ := ha.2.2.2.1 hasucc
    refine ⟨husucc, hupath, hucost, huopt, hbsucc, ?_, hdsucc, ?_, hasucc, ?_⟩
    · rw [hbcost]
      exact huopt _ hbpath
    · rw [hdcost]
      exact huopt _ hdpath
    · rw [← hacost]
      exact huopt _ hapath

/-- C1 witness: the amended theorem at `gCex` with the Euclidean-derived
heuristic, the reachability hypothesis discharged by the walk S-B-G. -/
theorem claim_C1_witness :
    (∃ p, IsPath gCex "S" "G" p) ∧
    (uniform_cost_search gCex "S" "G").success = true ∧
    (uniform_cost_search gCex "S" "G").cost
      ≤ (breadth_first_search gCex "S" "G").cost ∧
    (uniform_cost_search gCex "S" "G").cost
      ≤ (a_star_search gCex hCex "S" "G").cost := by
  have hSB : get_distance gCex "S" "B" = some 2 := by decide
  have hBG : get_distance gCex "B" "G" = some 1 := by decide
  have hS : ("S" : String) ∈ gCex.nodes := by decide
  have hpath : IsPath gCex "S" "G" ["S", "B", "G"] :=
    ((IsPath.refl hS).snoc hSB).snoc hBG
  have hmain := claim_C1 gCex hCex "S" "G" ⟨_, hpath⟩
  exact ⟨⟨_, hpath⟩, hmain.1, hmain.2.2.2.2.2.1, hmain.2.2.2.2.2.2.2.2.2⟩

/-- C1 counterexample: on `gCex` with the heuristic `hCex` — provably
equal to the graph's coordinate-derived `euclidean_distance` at every
node pair the run consults — A-star returns the path S-A-G of cost 11,
while the walk S-B-G costs 3 and UCS returns cost 3: A-star's result is
not minimum-cost, and its cost differs from UCS's. -/
theorem claim_C1_counterexample :
    (a_star_search gCex hCex "S" "G").success = true ∧
    (a_star_search gCex hCex "S" "G").path = ["S", "A", "G"] ∧
    (a_star_search gCex hCex "S" "G").cost = ((11 : ℕ) : WithTop ℕ) ∧
    (uniform_cost_search gCex "S" "G").cost = ((3 : ℕ) : WithTop ℕ) ∧
    IsPath gCex "S" "G" ["S", "B", "G"] ∧
    get_path_distance gCex ["S", "B", "G"] = ((3 : ℕ) : WithTop ℕ) ∧
    get_path_distance gCex ["S", "B", "G"] < (a_star_search gCex hCex "S" "G").cost ∧
    euclidean_distance gCex "S" "G" = (((hCex "S" "G" : ℚ) : ℝ) : EReal) ∧
    euclidean_distance gCex "A" "G" = (((hCex "A" "G" : ℚ) : ℝ) : EReal) ∧
    euclidean_distance gCex "B" "G" = (((hCex "B" "G" : ℚ) : ℝ) : EReal) ∧
    euclidean_distance gCex "G" "G" = (((hCex "G" "G" : ℚ) : ℝ) : EReal) := by
  have hast : a_star_search gCex hCex "S" "G"
      = ⟨["S", "A", "G"], ((11 : ℕ) : WithTop ℕ), ["S", "A", "G"], ["S", "A", "G"],
          "A*", true⟩ := by
    norm_num +decide [a_star_search, astarLoop, astarRelax, astarPush, is_valid_node,
      gCex, mkGraph, tblCex, tableAdj, List.orderedInsert, get_distance, lookupW,
      hCex, xCex, astarLE, astarKey, Prod.Lex.le_iff]
  have hucs : uniform_cost_search gCex "S" "G"
      = ⟨["S", "B", "G"], ((3 : ℕ) : WithTop ℕ), ["S", "A", "B", "G"],
          ["S", "A", "B", "G"], "UCS", true⟩ := by
    simp +decide [uniform_cost_search, ucsLoop, ucsPushAll, ucsPush, is_valid_node,
      gCex, mkGraph, tblCex, tableAdj, List.orderedInsert, get_path_distance,
      get_distance, lookupW]
  have hSB : get_distance gCex "S" "B" = some 2 := by decide
  have hBG : get_distance gCex "B" "G" = some 1 := by decide
  have hS : ("S" : String) ∈ gCex.nodes := by decide
  have hpath : IsPath gCex "S" "G" ["S", "B", "G"] :=
    ((IsPath.refl hS).snoc hSB).snoc hBG
  have hcS : gCex.coordinates "S" = some (0, 0) := by decide
  have hcA : gCex.coordinates "A" = some (824, 0) := by decide
  have hcB : gCex.coordinates "B" = some (0, 0) := by decide
  have hcG : gCex.coordinates "G" = some (824, 0) := by decide
  refine ⟨by rw [hast], by rw [hast], by rw [hast], by rw [hucs], hpath, by decide,
    ?_, ?_, ?_, ?_, ?_⟩
  · rw [hast]
    have h3 : get_path_distance gCex ["S", "B", "G"] = ((3 : ℕ) : WithTop ℕ) := by decide
    rw [h3]
    show ((3 : ℕ) : WithTop ℕ) < ((11 : ℕ) : WithTop ℕ)
    exact_mod_cast (by norm_num : (3 : ℕ) < 11)
  · rw [euclid_horiz gCex "S" "G" 0 824 0 hcS hcG]
    norm_num +decide [hCex, xCex]
  · rw [euclid_horiz gCex "A" "G" 824 824 0 hcA hcG]
    norm_num +decide [hCex, xCex]
  · rw [euclid_horiz gCex "B" "G" 0 824 0 hcB hcG]
    norm_num +decide [hCex, xCex]
  · rw [euclid_horiz gCex "G" "G" 824 824 0 hcG hcG]
    norm_num +decide [hCex, xCex]

/-- C2 (amended): among frontier entries of equal accumulated cost,
`heapq` pops the entry whose remaining tuple components `(node, path)`
compare lexicographically smaller, regardless of insertion order — not
the earliest-inserted entry. -/
theorem claim_C2 (c : ℕ) (n₁ n₂ : String) (p₁ p₂ : List String)
    (hlt : n₁.toList < n₂.toList) :
    ucsPushAll [] [(c, n₂, p₂), (c, n₁, p₁)] = [(c, n₁, p₁), (c, n₂, p₂)] ∧
    ucsPushAll [] [(c, n₁, p₁), (c, n₂, p₂)] = [(c, n₁, p₁), (c, n₂, p₂)] := by
  have hkey : ucsKey (c, n₁, p₁) < ucsKey (c, n₂, p₂) := by
    unfold ucsKey
    refine (Prod.Lex.lt_iff _ _).mpr (Or.inr ⟨rfl, ?_⟩)
    exact (Prod.Lex.lt_iff _ _).mpr (Or.inl hlt)
  have hle : ucsLE (c, n₁, p₁) (c, n₂, p₂) := le_of_lt hkey
  have hnle : ¬ ucsLE (c, n₂, p₂) (c, n₁, p₁) := not_le.mpr hkey
  constructor
  · show ucsPush (ucsPush [] (c, n₂, p₂)) (c, n₁, p₁) = _
    unfold ucsPush
    simp only [List.orderedInsert]
    rw [if_pos hle]
  · show ucsPush (ucsPush [] (c, n₁, p₁)) (c, n₂, p₂) = _
    unfold ucsPush
    simp only [List.orderedInsert]
    rw [if_neg hnle]

/-- C2 witness: the amended tie-break rule at concrete entries of equal
cost 7. -/
theorem claim_C2_witness :
    ("A".toList < "B".toList) ∧
    ucsPushAll [] [(7, "B", ["B"]), (7, "A", ["A"])]
      = [(7, "A", ["A"]), (7, "B", ["B"])] := by
  have hlt : "A".toList < "B".toList := by decide
  exact ⟨hlt, (claim_C2 7 "A" "B" ["A"] ["B"] hlt).1⟩

/-- C2 counterexample: in `gTie`, S's neighbour list enumerates B before
A, so the equal-cost entries enter the frontier B first; yet the UCS run
pops A first (exploration order S, A, B), contradicting the claimed
first-in-first-out tie-break, because the heap orders equal-cost tuples
by their node component. -/
theorem claim_C2_counterexample :
    gTie.adj "S" = [("B", 5), ("A", 5)] ∧
    ucsPushAll [] [(5, "B", ["S", "B"]), (5, "A", ["S", "A"])]
      = [(5, "A", ["S", "A"]), (5, "B", ["S", "B"])] ∧
    (uniform_cost_search gTie "S" "T").exploration_order = ["S", "A", "B"] := by
  refine ⟨by decide, by decide, ?_⟩
  simp +decide [uniform_cost_search, ucsLoop, ucsPushAll, ucsPush, is_valid_node,
    gTie, mkGraph, tblTie, tableAdj, List.orderedInsert, get_distance, lookupW]


end PathFinder
